import Mathlib

/-!
# Blinkdb: the LSM storage engine (src/Server/LSMStorageEngine.hpp)

A shallow embedding of `LSMStorageEngine`: the memtable (`std::map`), the position
index (`std::unordered_map`), the write-ahead log `wal.log` and the segment file
`sstable.txt`, both files as sequences of characters, one `Char` for each C++
`char`.

Conventions of the embedding.

* A file is `Option (List Char)`: `none` when the file does not exist, so that
  opening it with `std::ifstream` fails.
* A stream position (`tellp`, `tellg`, `seekg`) is the number of characters before
  it. For the streams opened with `std::ios::app` the put position is the end of
  the file, so `tellp()` is the length of what the file holds so far.
* Opening a file for writing can fail: the two flags `canOpenWal` and
  `canOpenSst` of the state say whether an output stream on `wal.log`
  (`walStream.open`, and `truncFile` in `flushToDisk`) and on `sstable.txt` can
  be opened. A failed opening leaves the file as it is. The `<<` writes on an
  open stream are taken to succeed.
* `storageMutex` serialises the operations; every operation is one atomic step
  of the state.
-/

namespace Blinkdb

/-! ## Strings, `operator>>` and the record format -/

/-- Whitespace of the classic C locale, as `std::isspace` sees it: space, `\t`, `\n`,
vertical tab, form feed and `\r`. -/
def isSpace (c : Char) : Bool :=
  c = ' ' || c = '\t' || c = '\n' || c = Char.ofNat 11 || c = Char.ofNat 12 || c = '\r'

/-- Comparison `a < b` of two `std::string`s, on their characters: lexicographic, a
proper prefix is smaller. -/
def lexLt : List Char → List Char → Bool
  | [], [] => false
  | [], _ :: _ => true
  | _ :: _, [] => false
  | a :: as, b :: bs => if a < b then true else if b < a then false else lexLt as bs

/-- Order of the keys of a `std::map<std::string, std::string>`. -/
def strLt (a b : String) : Bool := lexLt a.data b.data

/-- Extraction `stream >> word` from the unread input: skip leading whitespace, then take
the longest run of non-whitespace characters. It fails (`none`) when no character is
extracted. The result is the word and the input left unread. -/
def readWord (inp : List Char) : Option (String × List Char) :=
  let s := inp.dropWhile isSpace
  let w := s.takeWhile (fun c => !isSpace c)
  if w = [] then none else some (String.mk w, s.dropWhile (fun c => !isSpace c))

/-- Extraction `stream >> key >> value`: two words, failing when either is missing. -/
def readPair (inp : List Char) : Option (String × String × List Char) :=
  match readWord inp with
  | none => none
  | some (k, r1) =>
    match readWord r1 with
    | none => none
    | some (v, r2) => some (k, v, r2)

/-- Characters written by `stream << key << " " << value << "\n"`. -/
def record (key value : String) : List Char :=
  key.data ++ ' ' :: (value.data ++ ['\n'])

/-! ## `std::map` and `std::unordered_map` -/

/-- Lookup `m.find(key)` in a `std::map`, kept as a list of entries in key order. -/
def mapFind : List (String × String) → String → Option String
  | [], _ => none
  | (k, v) :: rest, key => if k = key then some v else mapFind rest key

/-- Assignment `m[key] = value` in a `std::map`: the entry of `key` is replaced, or a new
entry is put at its place in key order. -/
def mapAssign (key value : String) : List (String × String) → List (String × String)
  | [] => [(key, value)]
  | (k, v) :: rest =>
    if strLt key k then (key, value) :: (k, v) :: rest
    else if key = k then (key, value) :: rest
    else (k, v) :: mapAssign key value rest

/-- Assignment `index[key] = pos` in the `std::unordered_map` of stream positions. -/
def indexAssign (index : String → Option Nat) (key : String) (pos : Nat) :
    String → Option Nat :=
  fun k => if k = key then some pos else index k

/-- Access `index[key]`, as `operator[]` does it: a missing key is inserted with a
default position. The result is the position and the map afterwards. -/
def indexAt (index : String → Option Nat) (key : String) :
    Nat × (String → Option Nat) :=
  match index key with
  | some pos => (pos, index)
  | none => (0, indexAssign index key 0)

/-! ## The engine -/

/-- Threshold `MEMTABLE_THRESHOLD` of the source. -/
def MEMTABLE_THRESHOLD : Nat := 2

/-- Marker `TOMBSTONE` of a deleted key. -/
def TOMBSTONE : String := "__TOMBSTONE__"

/-- State of an `LSMStorageEngine` together with its two files. -/
structure LSMStorageEngine where
  /-- Entries of `memTable`, in key order. -/
  memTable : List (String × String)
  /-- Whether `walStream.is_open()`. -/
  walStream : Bool
  /-- Content of `wal.log`. -/
  walFile : Option (List Char)
  /-- Content of `sstable.txt`. -/
  sstableFile : Option (List Char)
  /-- Position index: the offset stored for a key, if any. -/
  index : String → Option Nat
  /-- Whether opening `wal.log` for writing succeeds. -/
  canOpenWal : Bool
  /-- Whether opening `sstable.txt` for writing succeeds. -/
  canOpenSst : Bool

namespace LSMStorageEngine

/-- Loop `for (pair : entries) { index[pair.first] = out.tellp(); out << pair.first << " "
<< pair.second << "\n"; }` of `flushToDisk` and of `compact`, on the content `out` of the
file so far. -/
def writeEntries : List (String × String) → List Char → (String → Option Nat) →
    List Char × (String → Option Nat)
  | [], out, index => (out, index)
  | (k, v) :: rest, out, index =>
    writeEntries rest (out ++ record k v) (indexAssign index k out.length)

/-- Method `flushToDisk`. After the memtable is written and cleared, `walStream` is closed,
`wal.log` is truncated by opening it once more (`truncFile`), and `walStream` is opened
again; both openings succeed or fail together, and a failed one leaves `wal.log` as it
is. -/
def flushToDisk (s : LSMStorageEngine) : LSMStorageEngine :=
  if s.canOpenSst then
    let w := writeEntries s.memTable (s.sstableFile.getD []) s.index
    { s with
      sstableFile := some w.1
      index := w.2
      memTable := []
      walFile := if s.canOpenWal then some [] else s.walFile
      walStream := s.canOpenWal }
  else s

/-- Method `writeAheadLog`. -/
def writeAheadLog (s : LSMStorageEngine) (key value : String) : LSMStorageEngine :=
  if s.walStream then
    { s with walFile := some (s.walFile.getD [] ++ record key value) }
  else s

/-- Loop `while (in >> key >> value) m[key] = value;` of `recover` and of `compact`.
Every round consumes input, so `fuel = inp.length` rounds are enough. -/
def readEntries : Nat → List Char → List (String × String) → List (String × String)
  | 0, _, m => m
  | fuel + 1, inp, m =>
    match readPair inp with
    | none => m
    | some (k, v, rest) => readEntries fuel rest (mapAssign k v m)

/-- Loop `while (sstable) { pos = sstable.tellg(); if (sstable >> key >> value)
index[key] = pos; }` of `buildIndex`, on a file of `total` characters of which `inp`
is unread. -/
def buildIndexLoop (total : Nat) : Nat → List Char → (String → Option Nat) →
    (String → Option Nat)
  | 0, _, index => index
  | fuel + 1, inp, index =>
    let pos := total - inp.length
    match readPair inp with
    | none => index
    | some (k, _, rest) => buildIndexLoop total fuel rest (indexAssign index k pos)

/-- Method `buildIndex`. -/
def buildIndex (s : LSMStorageEngine) : LSMStorageEngine :=
  match s.sstableFile with
  | none => { s with index := fun _ => none }
  | some f =>
    { s with index := buildIndexLoop f.length (f.length + 1) f (fun _ => none) }

/-- Method `recover`. -/
def recover (s : LSMStorageEngine) : LSMStorageEngine :=
  match s.walFile with
  | none => s
  | some w => { s with memTable := readEntries w.length w s.memTable }

/-- Constructor `LSMStorageEngine()`, on the files found on disk. -/
def construct (walFile sstableFile : Option (List Char)) (canOpenWal canOpenSst : Bool) :
    LSMStorageEngine :=
  buildIndex (recover
    { memTable := []
      walStream := canOpenWal
      walFile := if canOpenWal then some (walFile.getD []) else walFile
      sstableFile := sstableFile
      index := fun _ => none
      canOpenWal := canOpenWal
      canOpenSst := canOpenSst })

/-- Method `set`. -/
def set (s : LSMStorageEngine) (key value : String) : LSMStorageEngine :=
  let s1 := writeAheadLog s key value
  let s2 := { s1 with memTable := mapAssign key value s1.memTable }
  if MEMTABLE_THRESHOLD ≤ s2.memTable.length then flushToDisk s2 else s2

/-- Method `get`: the returned string and the state afterwards. -/
def get (s : LSMStorageEngine) (key : String) : String × LSMStorageEngine :=
  match mapFind s.memTable key with
  | some v => (if v = TOMBSTONE then "" else v, s)
  | none =>
    match s.index key with
    | none => ("", s)
    | some _ =>
      match s.sstableFile with
      | none => ("", s)
      | some f =>
        let r := indexAt s.index key
        let s1 := { s with index := r.2 }
        match readPair (f.drop r.1) with
        | none => ("", s1)
        | some (_, v, _) => (if v = TOMBSTONE then "" else v, s1)

/-- Method `del`. -/
def del (s : LSMStorageEngine) (key : String) : LSMStorageEngine :=
  let s1 := writeAheadLog s key TOMBSTONE
  let s2 := { s1 with memTable := mapAssign key TOMBSTONE s1.memTable }
  if MEMTABLE_THRESHOLD ≤ s2.memTable.length then flushToDisk s2 else s2

/-- Test of the erasing loop of `compact`: an entry stays unless its value is the
tombstone. -/
def isLive (e : String × String) : Bool := decide (e.2 ≠ TOMBSTONE)

/-- Method `compact`: the state afterwards and the entry count it prints, if it prints
one. -/
def compact (s : LSMStorageEngine) : LSMStorageEngine × Option Nat :=
  match s.sstableFile with
  | none => (s, none)
  | some f =>
    let latestEntries := (readEntries f.length f []).filter isLive
    if s.canOpenSst then
      let w := writeEntries latestEntries [] (fun _ => none)
      ({ s with sstableFile := some w.1, index := w.2 }, some latestEntries.length)
    else (s, none)

end LSMStorageEngine

/-! ## Well-formed input and reachable states -/

/-- Whether a key or a value is a proper word of the record format: not empty and free of
whitespace. -/
def wfToken (w : String) : Bool :=
  !w.data.isEmpty && w.data.all (fun c => !isSpace c)

/-- Content of a file that holds the given records, one `key value` line each. -/
def encode : List (String × String) → List Char
  | [] => []
  | (k, v) :: rest => record k v ++ encode rest

/-- Whether each record is made of proper words. -/
def wfRecords (recs : List (String × String)) : Bool :=
  recs.all (fun e => wfToken e.1 && wfToken e.2)

/-- A file is well formed when it is absent or holds a sequence of records of proper
words. -/
def WellFormedFile (file : Option (List Char)) : Prop :=
  ∀ f, file = some f → ∃ recs, wfRecords recs = true ∧ f = encode recs

/-- An engine freshly constructed in a directory without files. -/
def fresh : LSMStorageEngine := LSMStorageEngine.construct none none true true

/-- States reachable with well-formed inputs and succeeding file I/O: construction over
well-formed files, then any sequence of `set`, `del` and `compact`. -/
inductive Reachable : LSMStorageEngine → Prop
  | construct (walFile sstableFile : Option (List Char)) :
      WellFormedFile walFile → WellFormedFile sstableFile →
      Reachable (LSMStorageEngine.construct walFile sstableFile true true)
  | set (s : LSMStorageEngine) (key value : String) :
      Reachable s → wfToken key = true → wfToken value = true →
      Reachable (s.set key value)
  | del (s : LSMStorageEngine) (key : String) :
      Reachable s → wfToken key = true → Reachable (s.del key)
  | compact (s : LSMStorageEngine) : Reachable s → Reachable s.compact.1

/-- Value of the last record of `key` in a sequence of records, if there is one. -/
def lastVal : List (String × String) → String → Option String
  | [], _ => none
  | (k, v) :: rest, key =>
    match lastVal rest key with
    | some w => some w
    | none => if k = key then some v else none

open LSMStorageEngine

/-! ## Notions used to state and prove the properties -/

/-- Replay of a sequence of records into a map, each by `m[key] = value`. -/
def replay (recs : List (String × String)) (m : List (String × String)) :
    List (String × String) :=
  recs.foldl (fun acc e => mapAssign e.1 e.2 acc) m

/-- Entries of a map are in strictly ascending key order. -/
def KeySorted (m : List (String × String)) : Prop :=
  m.Pairwise (fun a b => strLt a.1 b.1 = true)

/-- The position index agrees with a segment file `f` that holds the records `recs`: a
key without a record has no entry, and the entry of any other key is an offset at which
the file holds, after optional whitespace, the last record of that key. -/
def IndexOK (index : String → Option Nat) (f : List Char) (recs : List (String × String)) :
    Prop :=
  ∀ key, match index key with
    | none => lastVal recs key = none
    | some p => ∃ v pre ws rest, lastVal recs key = some v ∧
        f = pre ++ (ws ++ (record key v ++ rest)) ∧ pre.length = p ∧
        ∀ c ∈ ws, isSpace c = true

/-- The segment file holds the well-formed records `recs` and the index agrees with it. -/
def SstOK (s : LSMStorageEngine) (recs : List (String × String)) : Prop :=
  wfRecords recs = true ∧ s.sstableFile.getD [] = encode recs ∧
    IndexOK s.index (encode recs) recs

/-- The log is open and holds the well-formed records `wrecs`, whose replay is the
memtable. -/
def WalOK (s : LSMStorageEngine) (wrecs : List (String × String)) : Prop :=
  s.walStream = true ∧ wfRecords wrecs = true ∧ s.walFile = some (encode wrecs) ∧
    replay wrecs [] = s.memTable

/-- Invariant of the reachable states. -/
def Inv (s : LSMStorageEngine) : Prop :=
  s.canOpenWal = true ∧ s.canOpenSst = true ∧ (∃ wrecs, WalOK s wrecs) ∧ ∃ recs, SstOK s recs

/-- What `get` answers for a stored value: a tombstone or a missing value reads as the
empty string. -/
def strip : Option String → String
  | none => ""
  | some v => if v = TOMBSTONE then "" else v

/-- Logical content of the store at a key: the memtable entry if there is one, else the
last record of the key in the segment file. -/
def view (memTable recs : List (String × String)) (key : String) : Option String :=
  match mapFind memTable key with
  | some v => some v
  | none => lastVal recs key

/-- State of `set` and `del` after the log record is written and the memtable assigned,
before the threshold is tested. -/
def logged (s : LSMStorageEngine) (key value : String) : LSMStorageEngine :=
  { writeAheadLog s key value with memTable := mapAssign key value s.memTable }

/-- Entries that `compact` keeps of a segment file holding `recs`: the replay of the
records into an empty map, without the tombstones. -/
def liveEntries (recs : List (String × String)) : List (String × String) :=
  (replay recs []).filter LSMStorageEngine.isLive

/-- An operation on the engine, as a caller issues it. -/
inductive Op where
  | set (key value : String)
  | del (key : String)
  | compact

/-- Effect of one operation on the state. -/
def step (s : LSMStorageEngine) : Op → LSMStorageEngine
  | Op.set k v => s.set k v
  | Op.del k => s.del k
  | Op.compact => s.compact.1

/-- Effect of a history of operations, oldest first. -/
def run (s : LSMStorageEngine) (ops : List Op) : LSMStorageEngine :=
  ops.foldl step s

/-- Whether an operation is a put or a delete of the key. -/
def mutates (key : String) : Op → Bool
  | Op.set k _ => k = key
  | Op.del k => k = key
  | Op.compact => false

/-- Keys whose last operation in a history is a put: the live keys of the store after
the history. Each such key is listed once, at its last put. -/
def putKeys : List Op → List String
  | [] => []
  | Op.set k _ :: rest => if rest.any (mutates k) then putKeys rest else k :: putKeys rest
  | Op.del _ :: rest => putKeys rest
  | Op.compact :: rest => putKeys rest

/-- Mutations of a history as records, oldest first: a put is the record of its key and
value, a delete the record of its key and the tombstone. -/
def opRecords : List Op → List (String × String)
  | [] => []
  | Op.set k v :: rest => (k, v) :: opRecords rest
  | Op.del k :: rest => (k, TOMBSTONE) :: opRecords rest
  | Op.compact :: rest => opRecords rest

/-- An operation with well-formed input: keys and values are proper words, and a put does
not store the tombstone. -/
def wfOp : Op → Bool
  | Op.set k v => wfToken k && wfToken v && !decide (v = TOMBSTONE)
  | Op.del k => wfToken k
  | Op.compact => true

/-- Keys of a segment file holding `recs` whose last record is not a tombstone, each
listed once. -/
def fileLiveKeys (recs : List (String × String)) : List String :=
  (recs.map Prod.fst).dedup.filter (fun k => decide (lastVal recs k ≠ some TOMBSTONE))

/-- Postcondition of a flush on the way from `s` to `t`: the segment file is extended by
the records of `entries`, which are in ascending key order, the memtable is empty and the
log file is `wal`. -/
def FlushPost (s t : LSMStorageEngine) (entries : List (String × String))
    (wal : Option (List Char)) : Prop :=
  t.sstableFile = some (s.sstableFile.getD [] ++ encode entries) ∧ KeySorted entries ∧
    t.memTable = [] ∧ t.walFile = wal

instance (m : List (String × String)) : Decidable (KeySorted m) :=
  inferInstanceAs (Decidable (m.Pairwise _))

/-! ## The RESP messages of the client (src/Client/RESPParser.hpp) -/

/-- Decimal digits that `stream << n` writes for a size `n`. -/
def sizeDigits (n : Nat) : List Char := Nat.toDigits 10 n

namespace RESPParser

/-- Loop of `encodeMessage` over the parts: for each part `$`, its size, `\r\n`, the part
and `\r\n`. -/
def encodeParts : List String → List Char
  | [] => []
  | part :: rest =>
    '$' :: (sizeDigits part.length ++
      '\r' :: '\n' :: (part.data ++ '\r' :: '\n' :: encodeParts rest))

/-- Method `encodeMessage`: `*`, the number of parts, `\r\n`, then the parts. -/
def encodeMessage (messageParts : List String) : List Char :=
  '*' :: (sizeDigits messageParts.length ++ '\r' :: '\n' :: encodeParts messageParts)

/-- Lines that the successive calls `std::getline(stream, line)` return on the unread
input, `line` being what the current call has extracted so far: a line ends at `\n`, which
is dropped, and the call at the end of the input fails unless it has extracted something. -/
def getLines : List Char → List Char → List (List Char)
  | [], line => if line = [] then [] else [line]
  | c :: rest, line =>
    if c = '\n' then line :: getLines rest [] else getLines rest (line ++ [c])

/-- Body of the loop of `decodeMessage` for one line: a trailing `\r` is removed, and the
line is pushed to the result unless it is empty or starts with `*` or `$`. -/
def decodeLine (result : List String) (line : List Char) : List String :=
  let line1 := if line.getLast? = some '\r' then line.dropLast else line
  match line1 with
  | [] => result
  | c :: _ => if c ≠ '*' ∧ c ≠ '$' then result ++ [String.mk line1] else result

/-- Method `decodeMessage`. -/
def decodeMessage (message : List Char) : List String :=
  (getLines message []).foldl decodeLine []

end RESPParser

/-- Words as the tokenizer of the client (`while (iss >> word)`) produces them: none is
empty, none holds whitespace. -/
def wfWords (words : List String) : Bool := words.all wfToken

/-! ## The command dispatcher (src/Client/CommandHandler.hpp) -/

/-- Method `CommandHandler::executeCommand` on the engine it refers to: the response and
the state of the engine afterwards. The words `command[1]` and `command[2]` are read only
behind the test of `command.size()`, where they exist. -/
def executeCommand (storageEngine : LSMStorageEngine) (command : List String) :
    String × LSMStorageEngine :=
  match command with
  | [] => ("-Error: Empty command\r\n", storageEngine)
  | operation :: _ =>
    if operation = "SET" ∧ command.length = 3 then
      ("OK", storageEngine.set (command.getD 1 "") (command.getD 2 ""))
    else if operation = "GET" ∧ command.length = 2 then
      let r := storageEngine.get (command.getD 1 "")
      (if r.1.data = [] then "" else r.1, r.2)
    else if operation = "DEL" ∧ command.length = 2 then
      ("OK", storageEngine.del (command.getD 1 ""))
    else ("-Error: Unknown or malformed command\r\n", storageEngine)

/-- A command that the dispatcher accepts: first word exactly `SET` with three words in
all, or `GET` or `DEL` with two. -/
def wellFormedCommand (command : List String) : Bool :=
  (command.head? = some "SET" && command.length = 3) ||
  (command.head? = some "GET" && command.length = 2) ||
  (command.head? = some "DEL" && command.length = 2)

/-! ## The order of the keys -/

theorem lexLt_irrefl (a : List Char) : lexLt a a = false := by
  induction a with
  | nil => rfl
  | cons c cs ih => simp [lexLt, ih]

theorem lexLt_trans : ∀ a b c : List Char,
    lexLt a b = true → lexLt b c = true → lexLt a c = true
  | [], [], _, h, _ => by simp [lexLt] at h
  | [], _ :: _, [], _, h => by simp [lexLt] at h
  | [], _ :: _, _ :: _, _, _ => by simp [lexLt]
  | _ :: _, [], _, h, _ => by simp [lexLt] at h
  | _ :: _, _ :: _, [], _, h => by simp [lexLt] at h
  | x :: xs, y :: ys, z :: zs, h1, h2 => by
    simp only [lexLt] at h1 h2 ⊢
    by_cases hxy : x < y
    · by_cases hyz : y < z
      · simp [lt_trans hxy hyz]
      · simp only [hyz, if_false] at h2
        by_cases hzy : z < y
        · simp [hzy] at h2
        · have hyz2 : y = z := le_antisymm (not_lt.mp hzy) (not_lt.mp hyz)
          subst hyz2
          simp [hxy]
    · simp only [hxy, if_false] at h1
      by_cases hyx : y < x
      · simp [hyx] at h1
      · have hxy2 : x = y := le_antisymm (not_lt.mp hyx) (not_lt.mp hxy)
        subst hxy2
        simp only [hyx, if_false] at h1
        by_cases hxz : x < z
        · simp [hxz]
        · simp only [hxz, if_false] at h2 ⊢
          by_cases hzx : z < x
          · simp [hzx] at h2
          · simp only [hzx, if_false] at h2 ⊢
            exact lexLt_trans xs ys zs h1 h2

theorem lexLt_total : ∀ a b : List Char,
    lexLt a b = false → lexLt b a = false → a = b
  | [], [], _, _ => rfl
  | [], _ :: _, h, _ => by simp [lexLt] at h
  | _ :: _, [], _, h => by simp [lexLt] at h
  | x :: xs, y :: ys, h1, h2 => by
    simp only [lexLt] at h1 h2
    by_cases hxy : x < y
    · simp [hxy] at h1
    · by_cases hyx : y < x
      · simp [hyx] at h2
      · simp only [hxy, hyx, if_false] at h1 h2
        have hxy2 : x = y := le_antisymm (not_lt.mp hyx) (not_lt.mp hxy)
        rw [hxy2, lexLt_total xs ys h1 h2]

theorem strLt_irrefl (a : String) : strLt a a = false := lexLt_irrefl a.data

theorem strLt_trans {a b c : String} (h1 : strLt a b = true) (h2 : strLt b c = true) :
    strLt a c = true := lexLt_trans _ _ _ h1 h2

theorem strLt_total {a b : String} (h1 : strLt a b = false) (h2 : a ≠ b) :
    strLt b a = true := by
  by_contra h3
  exact h2 (String.ext (lexLt_total _ _ h1 (by simpa using h3)))

theorem strLt_ne {a b : String} (h : strLt a b = true) : a ≠ b := by
  rintro rfl
  simp [strLt_irrefl] at h

/-! ## The map operations -/

theorem mapFind_mapAssign_self (k v : String) (m : List (String × String)) :
    mapFind (mapAssign k v m) k = some v := by
  induction m with
  | nil => simp [mapAssign, mapFind]
  | cons e rest ih =>
    obtain ⟨k0, v0⟩ := e
    simp only [mapAssign]
    split_ifs with h1 h2
    · simp [mapFind]
    · simp [mapFind]
    · simp [mapFind, Ne.symm h2, ih]

theorem mapFind_mapAssign_ne {k key : String} (v : String) (m : List (String × String))
    (h : key ≠ k) : mapFind (mapAssign k v m) key = mapFind m key := by
  induction m with
  | nil => simp [mapAssign, mapFind, Ne.symm h]
  | cons e rest ih =>
    obtain ⟨k0, v0⟩ := e
    simp only [mapAssign]
    split_ifs with h1 h2
    · simp [mapFind, Ne.symm h]
    · subst h2
      simp [mapFind, Ne.symm h]
    · simp [mapFind, ih]

theorem mem_mapAssign {k v : String} {m : List (String × String)} {e : String × String}
    (h : e ∈ mapAssign k v m) : e = (k, v) ∨ e ∈ m := by
  induction m with
  | nil => simpa [mapAssign] using h
  | cons e0 rest ih =>
    obtain ⟨k0, v0⟩ := e0
    simp only [mapAssign] at h
    split_ifs at h with h1 h2
    · simpa using h
    · rcases List.mem_cons.mp h with h | h
      · exact Or.inl h
      · exact Or.inr (List.mem_cons_of_mem _ h)
    · rcases List.mem_cons.mp h with h | h
      · exact Or.inr (h ▸ List.mem_cons_self _ _)
      · rcases ih h with h | h
        · exact Or.inl h
        · exact Or.inr (List.mem_cons_of_mem _ h)

theorem mapAssign_sorted (k v : String) {m : List (String × String)} (h : KeySorted m) :
    KeySorted (mapAssign k v m) := by
  induction m with
  | nil => simp [mapAssign, KeySorted]
  | cons e0 rest ih =>
    obtain ⟨k0, v0⟩ := e0
    have hs := List.pairwise_cons.mp h
    simp only [mapAssign]
    split_ifs with h1 h2
    · refine List.pairwise_cons.mpr ⟨?_, h⟩
      intro e he
      rcases List.mem_cons.mp he with he | he
      · simpa [he] using h1
      · exact strLt_trans h1 (hs.1 e he)
    · subst h2
      exact List.pairwise_cons.mpr ⟨hs.1, hs.2⟩
    · refine List.pairwise_cons.mpr ⟨?_, ih hs.2⟩
      intro e he
      rcases mem_mapAssign he with he | he
      · subst he
        exact strLt_total (by simpa using h1) h2
      · exact hs.1 e he

theorem mapFind_eq_none_of_sorted {k : String} {m : List (String × String)}
    (h : ∀ e ∈ m, strLt k e.1 = true) : mapFind m k = none := by
  induction m with
  | nil => rfl
  | cons e0 rest ih =>
    obtain ⟨k0, v0⟩ := e0
    have h0 : k ≠ k0 := strLt_ne (h (k0, v0) (List.mem_cons_self _ _))
    simp [mapFind, Ne.symm h0, ih (fun e he => h e (List.mem_cons_of_mem _ he))]

/-! ## Last record of a key, replay -/

theorem lastVal_append (a b : List (String × String)) (key : String) :
    lastVal (a ++ b) key =
      match lastVal b key with
      | some w => some w
      | none => lastVal a key := by
  induction a with
  | nil =>
    simp only [List.nil_append]
    cases lastVal b key <;> rfl
  | cons e rest ih =>
    obtain ⟨k, v⟩ := e
    show (match lastVal (rest ++ b) key with
      | some w => some w
      | none => if k = key then some v else none) = _
    rw [ih]
    simp only [lastVal]
    cases lastVal b key <;> rfl

theorem lastVal_snoc (a : List (String × String)) (k v key : String) :
    lastVal (a ++ [(k, v)]) key = if k = key then some v else lastVal a key := by
  rw [lastVal_append]
  by_cases h : k = key <;> simp [lastVal, h]

theorem lastVal_mem {recs : List (String × String)} {key v : String}
    (h : lastVal recs key = some v) : (key, v) ∈ recs := by
  induction recs with
  | nil => simp [lastVal] at h
  | cons e rest ih =>
    obtain ⟨k0, v0⟩ := e
    simp only [lastVal] at h
    cases h1 : lastVal rest key with
    | some w =>
      rw [h1] at h
      simp only [Option.some.injEq] at h
      subst h
      exact List.mem_cons_of_mem _ (ih h1)
    | none =>
      rw [h1] at h
      by_cases h2 : k0 = key
      · simp only [h2, if_true, Option.some.injEq] at h
        simp [h2, h]
      · simp [h2] at h

theorem lastVal_eq_none {recs : List (String × String)} {key : String}
    (h : ∀ e ∈ recs, e.1 ≠ key) : lastVal recs key = none := by
  induction recs with
  | nil => rfl
  | cons e rest ih =>
    obtain ⟨k0, v0⟩ := e
    have h0 : k0 ≠ key := h (k0, v0) (List.mem_cons_self _ _)
    simp [lastVal, ih (fun e he => h e (List.mem_cons_of_mem _ he)), h0]

theorem lastVal_isSome_of_mem {recs : List (String × String)} {key v : String}
    (h : (key, v) ∈ recs) : ∃ w, lastVal recs key = some w := by
  induction recs with
  | nil => simp at h
  | cons e rest ih =>
    obtain ⟨k0, v0⟩ := e
    simp only [lastVal]
    cases h1 : lastVal rest key with
    | some w => exact ⟨w, rfl⟩
    | none =>
      rcases List.mem_cons.mp h with h | h
      · simp only [Prod.mk.injEq] at h
        exact ⟨v0, by simp [h.1]⟩
      · obtain ⟨w, hw⟩ := ih h
        rw [h1] at hw
        cases hw

theorem lastVal_eq_mapFind {m : List (String × String)} (h : KeySorted m) (key : String) :
    lastVal m key = mapFind m key := by
  induction m with
  | nil => rfl
  | cons e rest ih =>
    obtain ⟨k0, v0⟩ := e
    have hs := List.pairwise_cons.mp h
    simp only [lastVal, mapFind, ih hs.2]
    by_cases h0 : k0 = key
    · subst h0
      simp [mapFind_eq_none_of_sorted hs.1]
    · cases h1 : mapFind rest key <;> simp [h0]

theorem replay_cons (k v : String) (recs m : List (String × String)) :
    replay ((k, v) :: recs) m = replay recs (mapAssign k v m) := rfl

theorem replay_snoc (k v : String) (recs m : List (String × String)) :
    replay (recs ++ [(k, v)]) m = mapAssign k v (replay recs m) := by
  simp [replay, List.foldl_append]

theorem mapFind_replay (recs m : List (String × String)) (key : String) :
    mapFind (replay recs m) key =
      match lastVal recs key with
      | some w => some w
      | none => mapFind m key := by
  induction recs generalizing m with
  | nil => simp [replay, lastVal]
  | cons e rest ih =>
    obtain ⟨k, v⟩ := e
    rw [replay_cons, ih]
    simp only [lastVal]
    cases h : lastVal rest key with
    | some w => rfl
    | none =>
      by_cases h0 : k = key
      · subst h0
        simp [mapFind_mapAssign_self]
      · simp [h0, mapFind_mapAssign_ne v m (Ne.symm h0)]

theorem replay_sorted (recs : List (String × String)) {m : List (String × String)}
    (h : KeySorted m) : KeySorted (replay recs m) := by
  induction recs generalizing m with
  | nil => exact h
  | cons e rest ih => exact ih (mapAssign_sorted e.1 e.2 h)

theorem mem_replay {recs m : List (String × String)} {e : String × String}
    (h : e ∈ replay recs m) : e ∈ recs ∨ e ∈ m := by
  induction recs generalizing m with
  | nil => exact Or.inr h
  | cons e0 rest ih =>
    rcases ih h with h1 | h1
    · exact Or.inl (List.mem_cons_of_mem _ h1)
    · rcases mem_mapAssign h1 with h2 | h2
      · exact Or.inl (h2 ▸ List.mem_cons_self _ _)
      · exact Or.inr h2

theorem keySorted_nil : KeySorted [] := List.Pairwise.nil

/-! ## Reading words and records -/

theorem wfToken_iff (w : String) :
    wfToken w = true ↔ w.data ≠ [] ∧ ∀ c ∈ w.data, isSpace c = false := by
  simp [wfToken, List.isEmpty_iff]

theorem dropWhile_space_append {ws : List Char} (l : List Char)
    (h : ∀ c ∈ ws, isSpace c = true) :
    (ws ++ l).dropWhile isSpace = l.dropWhile isSpace := by
  induction ws with
  | nil => rfl
  | cons c cs ih =>
    have hc : isSpace c = true := h c (List.mem_cons_self _ _)
    simp [List.dropWhile, hc, ih (fun d hd => h d (List.mem_cons_of_mem _ hd))]

theorem takeWhile_word {w : List Char} (d : Char) (rest : List Char)
    (h : ∀ c ∈ w, isSpace c = false) (hd : isSpace d = true) :
    (w ++ d :: rest).takeWhile (fun c => !isSpace c) = w := by
  induction w with
  | nil => simp [List.takeWhile, hd]
  | cons c cs ih =>
    have hc : isSpace c = false := h c (List.mem_cons_self _ _)
    simp [List.takeWhile, hc, ih (fun d hd => h d (List.mem_cons_of_mem _ hd))]

theorem dropWhile_word {w : List Char} (d : Char) (rest : List Char)
    (h : ∀ c ∈ w, isSpace c = false) (hd : isSpace d = true) :
    (w ++ d :: rest).dropWhile (fun c => !isSpace c) = d :: rest := by
  induction w with
  | nil => simp [List.dropWhile, hd]
  | cons c cs ih =>
    have hc : isSpace c = false := h c (List.mem_cons_self _ _)
    simp [List.dropWhile, hc, ih (fun d hd => h d (List.mem_cons_of_mem _ hd))]

theorem readWord_word (ws : List Char) {w : String} (d : Char) (rest : List Char)
    (hws : ∀ c ∈ ws, isSpace c = true) (hw : wfToken w = true) (hd : isSpace d = true) :
    readWord (ws ++ (w.data ++ d :: rest)) = some (w, d :: rest) := by
  obtain ⟨hne, hall⟩ := (wfToken_iff w).mp hw
  have h1 : (ws ++ (w.data ++ d :: rest)).dropWhile isSpace = w.data ++ d :: rest := by
    rw [dropWhile_space_append _ hws]
    cases hdata : w.data with
    | nil => exact absurd hdata hne
    | cons c cs =>
      have hc : isSpace c = false := hall c (by simp [hdata])
      simp [List.dropWhile, hc]
  simp only [readWord, h1, takeWhile_word d rest hall hd, dropWhile_word d rest hall hd]
  simp [hne]

theorem readWord_space {ws : List Char} (hws : ∀ c ∈ ws, isSpace c = true) :
    readWord ws = none := by
  have h1 : ws.dropWhile isSpace = [] := by
    have := dropWhile_space_append [] hws
    simpa using this
  simp [readWord, h1]

theorem readPair_record {ws : List Char} {k v : String} (rest : List Char)
    (hws : ∀ c ∈ ws, isSpace c = true) (hk : wfToken k = true) (hv : wfToken v = true) :
    readPair (ws ++ (record k v ++ rest)) = some (k, v, '\n' :: rest) := by
  have e1 : ws ++ (record k v ++ rest) = ws ++ (k.data ++ ' ' :: (v.data ++ '\n' :: rest)) := by
    simp [record]
  have e2 : ' ' :: (v.data ++ '\n' :: rest) = [' '] ++ (v.data ++ '\n' :: rest) := rfl
  have r1 := readWord_word ws ' ' (v.data ++ '\n' :: rest) hws hk (by decide)
  have r2 := readWord_word [' '] '\n' rest (by simp; decide) hv (by decide)
  rw [← e2] at r2
  simp only [readPair, e1, r1, r2]

theorem readPair_space {ws : List Char} (hws : ∀ c ∈ ws, isSpace c = true) :
    readPair ws = none := by
  simp [readPair, readWord_space hws]

theorem encode_append (a b : List (String × String)) :
    encode (a ++ b) = encode a ++ encode b := by
  induction a with
  | nil => rfl
  | cons e rest ih =>
    obtain ⟨k, v⟩ := e
    simp [encode, ih]

theorem length_le_encode (recs : List (String × String)) :
    recs.length ≤ (encode recs).length := by
  induction recs with
  | nil => simp
  | cons e rest ih =>
    obtain ⟨k, v⟩ := e
    simp only [encode, record, List.length_append, List.length_cons]
    omega

theorem wfRecords_cons {k v : String} {rest : List (String × String)} :
    wfRecords ((k, v) :: rest) = true ↔
      wfToken k = true ∧ wfToken v = true ∧ wfRecords rest = true := by
  simp [wfRecords, and_assoc]

theorem wfRecords_append {a b : List (String × String)} :
    wfRecords (a ++ b) = true ↔ wfRecords a = true ∧ wfRecords b = true := by
  simp only [wfRecords, List.all_append, Bool.and_eq_true]

theorem wfRecords_mem {recs : List (String × String)} (h : wfRecords recs = true)
    {k v : String} (hm : (k, v) ∈ recs) : wfToken k = true ∧ wfToken v = true := by
  have := List.all_eq_true.mp h (k, v) hm
  simpa using this

theorem readEntries_encode (recs : List (String × String)) :
    ∀ (fuel : Nat) (ws : List Char) (m : List (String × String)),
      wfRecords recs = true → (∀ c ∈ ws, isSpace c = true) → recs.length ≤ fuel →
      readEntries fuel (ws ++ encode recs) m = replay recs m := by
  induction recs with
  | nil =>
    intro fuel ws m _ hws _
    cases fuel with
    | zero => rfl
    | succ f => simp [readEntries, encode, readPair_space hws, replay]
  | cons e rest ih =>
    obtain ⟨k, v⟩ := e
    intro fuel ws m hwf hws hfuel
    obtain ⟨hk, hv, hrest⟩ := wfRecords_cons.mp hwf
    cases fuel with
    | zero => simp at hfuel
    | succ f =>
      simp only [readEntries, encode, readPair_record _ hws hk hv, replay_cons]
      exact ih f ['\n'] _ hrest (by simp; decide) (by simpa using hfuel)

theorem readEntries_file {recs : List (String × String)} (h : wfRecords recs = true)
    (m : List (String × String)) :
    readEntries (encode recs).length (encode recs) m = replay recs m := by
  have := readEntries_encode recs (encode recs).length [] m h (by simp) (length_le_encode recs)
  simpa using this

/-! ## The reading loops terminate within their fuel -/

theorem readWord_length {inp rest : List Char} {w : String}
    (h : readWord inp = some (w, rest)) : rest.length < inp.length := by
  unfold readWord at h
  simp only at h
  split_ifs at h with hw
  simp only [Option.some.injEq, Prod.mk.injEq] at h
  obtain ⟨-, hrest⟩ := h
  have h1 := List.takeWhile_append_dropWhile (fun c => !isSpace c) (inp.dropWhile isSpace)
  have h2 : (inp.dropWhile isSpace).length ≤ inp.length :=
    (List.dropWhile_suffix isSpace).length_le
  have h3 : 0 < ((inp.dropWhile isSpace).takeWhile (fun c => !isSpace c)).length :=
    List.length_pos.mpr hw
  have h4 := congrArg List.length h1
  rw [List.length_append, hrest] at h4
  omega

theorem readPair_length {inp rest : List Char} {k v : String}
    (h : readPair inp = some (k, v, rest)) : rest.length < inp.length := by
  unfold readPair at h
  cases h1 : readWord inp with
  | none => simp [h1] at h
  | some r1 =>
    obtain ⟨k1, rest1⟩ := r1
    cases h2 : readWord rest1 with
    | none => simp [h1, h2] at h
    | some r2 =>
      obtain ⟨v2, rest2⟩ := r2
      simp only [h1, h2, Option.some.injEq, Prod.mk.injEq] at h
      have := readWord_length h1
      have := readWord_length h2
      rw [← h.2.2]
      omega

theorem readPair_nil : readPair [] = none := by decide

theorem readEntries_fuel (fuel1 : Nat) :
    ∀ (fuel2 : Nat) (inp : List Char) (m : List (String × String)),
      inp.length ≤ fuel1 → inp.length ≤ fuel2 →
      readEntries fuel1 inp m = readEntries fuel2 inp m := by
  induction fuel1 with
  | zero =>
    intro fuel2 inp m h1 _
    have : inp = [] := List.length_eq_zero.mp (Nat.le_zero.mp h1)
    subst this
    cases fuel2 <;> simp [readEntries, readPair_nil]
  | succ f ih =>
    intro fuel2 inp m h1 h2
    cases fuel2 with
    | zero =>
      have : inp = [] := List.length_eq_zero.mp (Nat.le_zero.mp h2)
      subst this
      simp [readEntries, readPair_nil]
    | succ g =>
      simp only [readEntries]
      cases hp : readPair inp with
      | none => rfl
      | some r =>
        obtain ⟨k, v, rest⟩ := r
        have := readPair_length hp
        exact ih g rest _ (by omega) (by omega)

theorem buildIndexLoop_fuel (total fuel1 : Nat) :
    ∀ (fuel2 : Nat) (inp : List Char) (index : String → Option Nat),
      inp.length ≤ fuel1 → inp.length ≤ fuel2 →
      buildIndexLoop total fuel1 inp index = buildIndexLoop total fuel2 inp index := by
  induction fuel1 with
  | zero =>
    intro fuel2 inp index h1 _
    have : inp = [] := List.length_eq_zero.mp (Nat.le_zero.mp h1)
    subst this
    cases fuel2 <;> simp [buildIndexLoop, readPair_nil]
  | succ f ih =>
    intro fuel2 inp index h1 h2
    cases fuel2 with
    | zero =>
      have : inp = [] := List.length_eq_zero.mp (Nat.le_zero.mp h2)
      subst this
      simp [buildIndexLoop, readPair_nil]
    | succ g =>
      simp only [buildIndexLoop]
      cases hp : readPair inp with
      | none => rfl
      | some r =>
        obtain ⟨k, v, rest⟩ := r
        have := readPair_length hp
        exact ih g rest _ (by omega) (by omega)

/-! ## The position index -/

theorem indexOK_empty : IndexOK (fun _ => none) [] [] := by
  intro key
  simp [lastVal]

theorem indexOK_extend {index : String → Option Nat} {f : List Char}
    {recs : List (String × String)} (g : List Char) (h : IndexOK index f recs) :
    IndexOK index (f ++ g) recs := by
  intro key
  have hk := h key
  cases hi : index key with
  | none => simpa [hi] using hk
  | some p =>
    rw [hi] at hk
    obtain ⟨v, pre, ws, rest, h1, h2, h3, h4⟩ := hk
    exact ⟨v, pre, ws, rest ++ g, h1, by simp [h2], h3, h4⟩

theorem indexOK_assign {index : String → Option Nat} {f : List Char}
    {recs : List (String × String)} {k v : String} {pre : List Char} (ws rest : List Char)
    (h : IndexOK index f recs) (hf : f = pre ++ (ws ++ (record k v ++ rest)))
    (hws : ∀ c ∈ ws, isSpace c = true) :
    IndexOK (indexAssign index k pre.length) f (recs ++ [(k, v)]) := by
  intro key
  by_cases hk : key = k
  · subst hk
    simp only [indexAssign, if_true]
    exact ⟨v, pre, ws, rest, by simp [lastVal_snoc], hf, rfl, hws⟩
  · have hk2 := h key
    simp only [indexAssign, hk, if_false, lastVal_snoc, Ne.symm hk]
    exact hk2

theorem writeEntries_fst (mem : List (String × String)) :
    ∀ (out : List Char) (index : String → Option Nat),
      (writeEntries mem out index).1 = out ++ encode mem := by
  induction mem with
  | nil => intro out index; simp [writeEntries, encode]
  | cons e rest ih =>
    obtain ⟨k, v⟩ := e
    intro out index
    simp [writeEntries, encode, ih]

theorem writeEntries_indexOK (mem : List (String × String)) :
    ∀ (index : String → Option Nat) (done : List (String × String)),
      IndexOK index (encode done) done →
      IndexOK (writeEntries mem (encode done) index).2 (encode (done ++ mem))
        (done ++ mem) := by
  induction mem with
  | nil => intro index done h; simpa [writeEntries] using h
  | cons e rest ih =>
    obtain ⟨k, v⟩ := e
    intro index done h
    have h1 : IndexOK (indexAssign index k (encode done).length)
        (encode (done ++ [(k, v)])) (done ++ [(k, v)]) := by
      have h2 := indexOK_extend (record k v) h
      refine indexOK_assign [] [] ?_ ?_ (by simp)
      · simpa [encode_append, encode] using h2
      · simp [encode_append, encode]
    have h3 := ih _ _ h1
    have e1 : encode (done ++ [(k, v)]) = encode done ++ record k v := by
      simp [encode_append, encode]
    simp only [writeEntries]
    rw [e1] at h3
    simpa using h3

theorem buildIndexLoop_indexOK (post : List (String × String)) :
    ∀ (fuel : Nat) (file pre ws : List Char) (index : String → Option Nat)
      (done : List (String × String)),
      wfRecords post = true → (∀ c ∈ ws, isSpace c = true) → post.length ≤ fuel →
      file = pre ++ (ws ++ encode post) → IndexOK index file done →
      IndexOK (buildIndexLoop file.length fuel (ws ++ encode post) index) file
        (done ++ post) := by
  induction post with
  | nil =>
    intro fuel file pre ws index done _ hws _ _ h
    cases fuel with
    | zero => simpa [buildIndexLoop] using h
    | succ f => simpa [buildIndexLoop, encode, readPair_space hws] using h
  | cons e rest ih =>
    obtain ⟨k, v⟩ := e
    intro fuel file pre ws index done hwf hws hfuel hfile h
    obtain ⟨hk, hv, hrest⟩ := wfRecords_cons.mp hwf
    cases fuel with
    | zero => simp at hfuel
    | succ f =>
      have hpos : file.length - (ws ++ encode ((k, v) :: rest)).length = pre.length := by
        rw [hfile]
        simp
      simp only [buildIndexLoop, hpos]
      simp only [encode, readPair_record _ hws hk hv]
      have h1 : IndexOK (indexAssign index k pre.length) file (done ++ [(k, v)]) :=
        indexOK_assign ws (encode rest) h (by simpa [encode] using hfile) hws
      have hfile2 : file = (pre ++ ws ++ k.data ++ ' ' :: v.data) ++ (['\n'] ++ encode rest) := by
        rw [hfile]
        simp [encode, record]
      have h2 := ih f file _ ['\n'] _ _ hrest (by simp; decide) (by simpa using hfuel) hfile2 h1
      simpa using h2

theorem buildIndex_indexOK {recs : List (String × String)} (h : wfRecords recs = true) :
    IndexOK (buildIndexLoop (encode recs).length ((encode recs).length + 1) (encode recs)
      (fun _ => none)) (encode recs) recs := by
  have h1 := buildIndexLoop_indexOK recs ((encode recs).length + 1) (encode recs) [] []
    (fun _ => none) [] h (by simp) (by have := length_le_encode recs; omega) (by simp)
    (by intro key; simp [lastVal])
  simpa using h1

theorem encode_eq_nil {recs : List (String × String)} (h : encode recs = []) : recs = [] := by
  cases recs with
  | nil => rfl
  | cons e rest =>
    obtain ⟨k, v⟩ := e
    simp [encode, record] at h

/-! ## What `get` returns -/

theorem get_eq_view {s : LSMStorageEngine} {recs : List (String × String)}
    (h : SstOK s recs) (key : String) :
    (s.get key).1 = strip (view s.memTable recs key) := by
  obtain ⟨hwf, hfile, hidx⟩ := h
  have hk := hidx key
  unfold LSMStorageEngine.get view
  cases hm : mapFind s.memTable key with
  | some v => simp [strip]
  | none =>
    cases hi : s.index key with
    | none =>
      rw [hi] at hk
      simp [hk, strip]
    | some p =>
      rw [hi] at hk
      obtain ⟨v, pre, ws, rest, h1, h2, h3, h4⟩ := hk
      obtain ⟨hwk, hwv⟩ := wfRecords_mem hwf (lastVal_mem h1)
      cases hf : s.sstableFile with
      | none =>
        rw [hf] at hfile
        have : recs = [] := encode_eq_nil hfile.symm
        subst this
        simp [lastVal] at h1
      | some f =>
        rw [hf] at hfile
        simp only [Option.getD_some] at hfile
        have hd : f.drop p = ws ++ (record key v ++ rest) := by
          rw [hfile, h2, ← h3]
          exact List.drop_left' rfl
        simp only [indexAt, hi, hd, readPair_record rest h4 hwk hwv, h1, strip]

/-! ## The invariant of the reachable states -/

theorem view_assign_self (k v : String) (m recs : List (String × String)) :
    view (mapAssign k v m) recs k = some v := by
  simp [view, mapFind_mapAssign_self]

theorem view_assign_ne {k key : String} (v : String) (m recs : List (String × String))
    (h : key ≠ k) : view (mapAssign k v m) recs key = view m recs key := by
  simp [view, mapFind_mapAssign_ne v m h]

theorem view_flush {m : List (String × String)} (h : KeySorted m)
    (recs : List (String × String)) (key : String) :
    view [] (recs ++ m) key = view m recs key := by
  simp only [view, mapFind, lastVal_append, lastVal_eq_mapFind h]

theorem walOK_sorted {s : LSMStorageEngine} {wrecs : List (String × String)}
    (h : WalOK s wrecs) : KeySorted s.memTable := by
  rw [← h.2.2.2]
  exact replay_sorted wrecs keySorted_nil

theorem walOK_wf {s : LSMStorageEngine} {wrecs : List (String × String)}
    (h : WalOK s wrecs) : wfRecords s.memTable = true := by
  rw [← h.2.2.2]
  refine List.all_eq_true.mpr ?_
  intro e he
  rcases mem_replay he with h1 | h1
  · exact List.all_eq_true.mp h.2.1 e h1
  · simp at h1

theorem flush_sstOK {s : LSMStorageEngine} {recs : List (String × String)}
    (h : SstOK s recs) (hm : wfRecords s.memTable = true) (hc : s.canOpenSst = true) :
    SstOK s.flushToDisk (recs ++ s.memTable) := by
  obtain ⟨hwf, hfile, hidx⟩ := h
  refine ⟨wfRecords_append.mpr ⟨hwf, hm⟩, ?_, ?_⟩
  · simp [flushToDisk, hc, writeEntries_fst, hfile, encode_append]
  · have := writeEntries_indexOK s.memTable s.index recs hidx
    simpa [flushToDisk, hc, hfile] using this

theorem flush_walOK {s : LSMStorageEngine} (hc : s.canOpenSst = true)
    (hw : s.canOpenWal = true) : WalOK s.flushToDisk [] := by
  simp [WalOK, flushToDisk, hc, hw, wfRecords, encode, replay]

theorem del_eq_set_tombstone (s : LSMStorageEngine) (key : String) :
    s.del key = s.set key TOMBSTONE := rfl

theorem flush_canOpenWal (s : LSMStorageEngine) :
    s.flushToDisk.canOpenWal = s.canOpenWal := by
  unfold flushToDisk
  split <;> rfl

theorem flush_canOpenSst (s : LSMStorageEngine) :
    s.flushToDisk.canOpenSst = s.canOpenSst := by
  unfold flushToDisk
  split <;> rfl

theorem set_eq (s : LSMStorageEngine) (k v : String) :
    s.set k v = if MEMTABLE_THRESHOLD ≤ (mapAssign k v s.memTable).length
      then (logged s k v).flushToDisk else logged s k v := by
  unfold LSMStorageEngine.set logged writeAheadLog
  cases s.walStream <;> rfl

theorem logged_inv {s : LSMStorageEngine} (h : Inv s) {k v : String}
    (hk : wfToken k = true) (hv : wfToken v = true) : Inv (logged s k v) := by
  obtain ⟨hcw, hcs, ⟨wrecs, hopen, hwwf, hwfile, hrep⟩, ⟨recs, hsst⟩⟩ := h
  refine ⟨?_, ?_, ⟨wrecs ++ [(k, v)], ?_, ?_, ?_, ?_⟩, ⟨recs, ?_⟩⟩
  · simpa [logged, writeAheadLog, hopen] using hcw
  · simpa [logged, writeAheadLog, hopen] using hcs
  · simp [logged, writeAheadLog, hopen]
  · exact wfRecords_append.mpr ⟨hwwf, by simp [wfRecords, hk, hv]⟩
  · simp [logged, writeAheadLog, hopen, hwfile, encode_append, encode]
  · simp [logged, writeAheadLog, hopen, replay_snoc, hrep]
  · simpa [SstOK, logged, writeAheadLog, hopen] using hsst

theorem logged_sstOK {s : LSMStorageEngine} {recs : List (String × String)}
    (h : SstOK s recs) (k v : String) : SstOK (logged s k v) recs := by
  unfold logged writeAheadLog
  cases s.walStream <;> exact h

theorem logged_memTable (s : LSMStorageEngine) (k v : String) :
    (logged s k v).memTable = mapAssign k v s.memTable := by
  unfold logged writeAheadLog
  cases s.walStream <;> rfl

theorem inv_flush {s : LSMStorageEngine} (h : Inv s) : Inv s.flushToDisk := by
  obtain ⟨hcw, hcs, ⟨wrecs, hwal⟩, ⟨recs, hsst⟩⟩ := h
  exact ⟨by rw [flush_canOpenWal, hcw], by rw [flush_canOpenSst, hcs],
    ⟨[], flush_walOK hcs hcw⟩, ⟨_, flush_sstOK hsst (walOK_wf hwal) hcs⟩⟩

theorem inv_set {s : LSMStorageEngine} (h : Inv s) {k v : String}
    (hk : wfToken k = true) (hv : wfToken v = true) : Inv (s.set k v) := by
  rw [set_eq]
  split_ifs
  · exact inv_flush (logged_inv h hk hv)
  · exact logged_inv h hk hv

theorem keySorted_filter {m : List (String × String)} (h : KeySorted m)
    (p : String × String → Bool) : KeySorted (m.filter p) :=
  List.Pairwise.filter p h

theorem mapFind_filter_sorted {m : List (String × String)} (h : KeySorted m)
    (key : String) :
    mapFind (m.filter isLive) key =
      match mapFind m key with
      | some v => if v = TOMBSTONE then none else some v
      | none => none := by
  induction m with
  | nil => rfl
  | cons e rest ih =>
    obtain ⟨k0, v0⟩ := e
    have hs := List.pairwise_cons.mp h
    by_cases h0 : k0 = key
    · subst h0
      have hnone : mapFind (rest.filter isLive) k0 = none :=
        mapFind_eq_none_of_sorted (fun e he => hs.1 e (List.mem_of_mem_filter he))
      by_cases hv : v0 = TOMBSTONE
      · simp [List.filter, isLive, hv, mapFind, hnone]
      · simp [List.filter, isLive, hv, mapFind]
    · by_cases hv : v0 = TOMBSTONE
      · simp [List.filter, isLive, hv, mapFind, h0, ih hs.2]
      · simp [List.filter, isLive, hv, mapFind, h0, ih hs.2]

theorem mem_of_mapFind {m : List (String × String)} {k v : String}
    (h : mapFind m k = some v) : (k, v) ∈ m := by
  induction m with
  | nil => simp [mapFind] at h
  | cons e rest ih =>
    obtain ⟨k0, v0⟩ := e
    by_cases h0 : k0 = k
    · simp only [mapFind, h0, if_true, Option.some.injEq] at h
      simp [h0, h]
    · simp only [mapFind, h0, if_false] at h
      exact List.mem_cons_of_mem _ (ih h)

theorem mapFind_of_mem {m : List (String × String)} (hs : KeySorted m) {k v : String}
    (h : (k, v) ∈ m) : mapFind m k = some v := by
  induction m with
  | nil => simp at h
  | cons e rest ih =>
    obtain ⟨k0, v0⟩ := e
    have hp := List.pairwise_cons.mp hs
    rcases List.mem_cons.mp h with h1 | h1
    · simp only [Prod.mk.injEq] at h1
      simp [mapFind, h1.1, h1.2]
    · have hne : k0 ≠ k := strLt_ne (hp.1 _ h1)
      simp [mapFind, hne, ih hp.2 h1]

theorem mapFind_replay_nil (recs : List (String × String)) (key : String) :
    mapFind (replay recs []) key = lastVal recs key := by
  rw [mapFind_replay]
  cases lastVal recs key <;> rfl

theorem liveEntries_sorted (recs : List (String × String)) :
    KeySorted (liveEntries recs) :=
  keySorted_filter (replay_sorted recs keySorted_nil) _

theorem mem_liveEntries {recs : List (String × String)} {k v : String} :
    (k, v) ∈ liveEntries recs ↔ lastVal recs k = some v ∧ v ≠ TOMBSTONE := by
  have hs : KeySorted (replay recs []) := replay_sorted recs keySorted_nil
  rw [← mapFind_replay_nil]
  constructor
  · intro h
    have h1 := List.mem_filter.mp h
    exact ⟨mapFind_of_mem hs h1.1, by simpa [isLive] using h1.2⟩
  · rintro ⟨h1, h2⟩
    exact List.mem_filter.mpr ⟨mem_of_mapFind h1, by simpa [isLive] using h2⟩

theorem liveEntries_wf {recs : List (String × String)} (h : wfRecords recs = true) :
    wfRecords (liveEntries recs) = true := by
  refine List.all_eq_true.mpr ?_
  rintro ⟨k, v⟩ he
  exact List.all_eq_true.mp h (k, v) (lastVal_mem (mem_liveEntries.mp he).1)

theorem lastVal_liveEntries (recs : List (String × String)) (key : String) :
    lastVal (liveEntries recs) key =
      match lastVal recs key with
      | some v => if v = TOMBSTONE then none else some v
      | none => none := by
  rw [lastVal_eq_mapFind (liveEntries_sorted recs), liveEntries,
    mapFind_filter_sorted (replay_sorted recs keySorted_nil), mapFind_replay_nil]

theorem strip_view_liveEntries (m recs : List (String × String)) (key : String) :
    strip (view m (liveEntries recs) key) = strip (view m recs key) := by
  unfold view
  cases mapFind m key with
  | some v => rfl
  | none =>
    simp only [lastVal_liveEntries]
    cases lastVal recs key with
    | none => rfl
    | some v => by_cases hv : v = TOMBSTONE <;> simp [strip, hv]

theorem compact_eq {s : LSMStorageEngine} {recs : List (String × String)}
    (hf : s.sstableFile = some (encode recs)) (hwf : wfRecords recs = true)
    (hc : s.canOpenSst = true) :
    s.compact = ({ s with
      sstableFile := some (encode (liveEntries recs))
      index := (writeEntries (liveEntries recs) [] (fun _ => none)).2 },
      some (liveEntries recs).length) := by
  simp [compact, hf, hc, readEntries_file hwf, writeEntries_fst, liveEntries]

theorem compact_sstOK {s : LSMStorageEngine} {recs : List (String × String)}
    (h : SstOK s recs) : ∃ recs2, SstOK s.compact.1 recs2 ∧
      ∀ m key, strip (view m recs2 key) = strip (view m recs key) := by
  obtain ⟨hwf, hfile, hidx⟩ := h
  cases hf : s.sstableFile with
  | none => exact ⟨recs, by simpa [compact, hf] using ⟨hwf, hfile, hidx⟩, fun _ _ => rfl⟩
  | some f =>
    rw [hf] at hfile
    simp only [Option.getD_some] at hfile
    subst hfile
    cases hc : s.canOpenSst with
    | false =>
      refine ⟨recs, ?_, fun _ _ => rfl⟩
      simpa [compact, hf, hc, SstOK] using ⟨hwf, hidx⟩
    | true =>
      refine ⟨liveEntries recs, ?_, fun m key => strip_view_liveEntries m recs key⟩
      rw [compact_eq hf hwf hc]
      refine ⟨liveEntries_wf hwf, rfl, ?_⟩
      have := writeEntries_indexOK (liveEntries recs) (fun _ => none) [] indexOK_empty
      simpa [encode] using this

theorem compact_frame (s : LSMStorageEngine) :
    s.compact.1.memTable = s.memTable ∧ s.compact.1.walFile = s.walFile ∧
    s.compact.1.walStream = s.walStream ∧ s.compact.1.canOpenWal = s.canOpenWal ∧
    s.compact.1.canOpenSst = s.canOpenSst := by
  unfold compact
  cases s.sstableFile with
  | none => simp
  | some f => cases hc : s.canOpenSst <;> simp [hc]

theorem inv_compact {s : LSMStorageEngine} (h : Inv s) : Inv s.compact.1 := by
  obtain ⟨hcw, hcs, ⟨wrecs, hopen, hwwf, hwfile, hrep⟩, ⟨recs, hsst⟩⟩ := h
  obtain ⟨h1, h2, h3, h4, h5⟩ := compact_frame s
  obtain ⟨recs2, hs2, -⟩ := compact_sstOK hsst
  exact ⟨by rw [h4, hcw], by rw [h5, hcs],
    ⟨wrecs, by rw [h3, hopen], hwwf, by rw [h2, hwfile], by rw [h1, hrep]⟩, ⟨recs2, hs2⟩⟩

theorem wellFormedFile_records {file : Option (List Char)} (h : WellFormedFile file) :
    ∃ recs, wfRecords recs = true ∧ file.getD [] = encode recs := by
  cases file with
  | none => exact ⟨[], rfl, rfl⟩
  | some f =>
    obtain ⟨recs, h1, h2⟩ := h f rfl
    exact ⟨recs, h1, by simpa using h2⟩

theorem construct_memTable (walFile sstableFile : Option (List Char))
    {wrecs : List (String × String)} (hw : wfRecords wrecs = true)
    (hwf : walFile.getD [] = encode wrecs) :
    (construct walFile sstableFile true true).memTable = replay wrecs [] := by
  unfold construct buildIndex recover
  cases sstableFile <;> simp [hwf, readEntries_file hw]

theorem construct_sstOK (walFile sstableFile : Option (List Char))
    {recs : List (String × String)} (hr : wfRecords recs = true)
    (hsf : sstableFile.getD [] = encode recs) :
    SstOK (construct walFile sstableFile true true) recs := by
  unfold construct buildIndex recover
  cases sstableFile with
  | none =>
    have : recs = [] := encode_eq_nil (by simpa using hsf.symm)
    subst this
    exact ⟨rfl, rfl, indexOK_empty⟩
  | some f =>
    simp only [Option.getD_some] at hsf
    subst hsf
    exact ⟨hr, rfl, buildIndex_indexOK hr⟩

theorem construct_inv {walFile sstableFile : Option (List Char)}
    (hw : WellFormedFile walFile) (hs : WellFormedFile sstableFile) :
    Inv (construct walFile sstableFile true true) := by
  obtain ⟨wrecs, hw1, hw2⟩ := wellFormedFile_records hw
  obtain ⟨recs, hs1, hs2⟩ := wellFormedFile_records hs
  refine ⟨?_, ?_, ⟨wrecs, ?_, hw1, ?_, (construct_memTable _ _ hw1 hw2).symm⟩,
    ⟨recs, construct_sstOK _ _ hs1 hs2⟩⟩
  · unfold construct buildIndex recover
    cases sstableFile <;> rfl
  · unfold construct buildIndex recover
    cases sstableFile <;> rfl
  · unfold construct buildIndex recover
    cases sstableFile <;> rfl
  · unfold construct buildIndex recover
    cases sstableFile <;> simp [hw2]

theorem reachable_inv {s : LSMStorageEngine} (h : Reachable s) : Inv s := by
  induction h with
  | construct walFile sstableFile hw hs => exact construct_inv hw hs
  | set s key value _ hk hv ih => exact inv_set ih hk hv
  | del s key _ hk ih =>
    rw [del_eq_set_tombstone]
    exact inv_set ih hk (by decide)
  | compact s _ ih => exact inv_compact ih

theorem reachable_fresh : Reachable fresh :=
  Reachable.construct none none (fun _ h => nomatch h) (fun _ h => nomatch h)

theorem get_set_eq_view {s : LSMStorageEngine} {recs : List (String × String)}
    (hinv : Inv s) (hsst : SstOK s recs) {k v : String}
    (hk : wfToken k = true) (hv : wfToken v = true) (key : String) :
    ((s.set k v).get key).1 = strip (view (mapAssign k v s.memTable) recs key) := by
  have hl := logged_inv hinv hk hv
  have hs2 := logged_sstOK hsst k v
  obtain ⟨-, hcs, ⟨wrecs, hwal⟩, -⟩ := hl
  rw [set_eq]
  split_ifs
  · rw [get_eq_view (flush_sstOK hs2 (walOK_wf hwal) hcs)]
    have hm : (logged s k v).flushToDisk.memTable = [] := by
      simp [flushToDisk, hcs]
    rw [hm, view_flush (walOK_sorted hwal), logged_memTable]
  · rw [get_eq_view hs2, logged_memTable]

theorem keySorted_nodup {m : List (String × String)} (h : KeySorted m) :
    (m.map Prod.fst).Nodup := by
  unfold List.Nodup
  rw [List.pairwise_map]
  exact List.Pairwise.imp (fun hab => strLt_ne hab) h

theorem liveEntries_length (recs : List (String × String)) :
    (liveEntries recs).length = (fileLiveKeys recs).length := by
  have hperm : ((liveEntries recs).map Prod.fst).Perm (fileLiveKeys recs) := by
    refine (List.perm_ext_iff_of_nodup (keySorted_nodup (liveEntries_sorted recs))
      ((List.nodup_dedup _).filter _)).mpr ?_
    intro k
    constructor
    · intro hk
      obtain ⟨e, he, rfl⟩ := List.mem_map.mp hk
      obtain ⟨h1, h2⟩ := mem_liveEntries.mp he
      refine List.mem_filter.mpr ⟨List.mem_dedup.mpr ?_, ?_⟩
      · exact List.mem_map.mpr ⟨_, lastVal_mem h1, rfl⟩
      · simp [h1, h2]
    · intro hk
      obtain ⟨h1, h2⟩ := List.mem_filter.mp hk
      obtain ⟨e, he, hek⟩ := List.mem_map.mp (List.mem_dedup.mp h1)
      obtain ⟨k0, v0⟩ := e
      simp only at hek
      subst hek
      obtain ⟨w, hw⟩ := lastVal_isSome_of_mem he
      have hne : w ≠ TOMBSTONE := by
        rintro rfl
        simp [hw] at h2
      exact List.mem_map.mpr ⟨(k0, w), mem_liveEntries.mpr ⟨hw, hne⟩, rfl⟩
  rw [← hperm.length_eq, List.length_map]

/-! ## The claims -/

/-- C1 (read-your-write): in every state reachable with well-formed inputs and
succeeding file I/O, for a key and a value that are proper words, the value not being the
tombstone, `get(k)` right after `set(k, v)` returns `v`, whether or not the `set` flushed
the memtable. -/
theorem read_your_write (s : LSMStorageEngine) (k v : String) (hs : Reachable s)
    (hk : wfToken k = true) (hv : wfToken v = true) (hne : v ≠ TOMBSTONE) :
    ((s.set k v).get k).1 = v := by
  have hinv := reachable_inv hs
  obtain ⟨recs, hsst⟩ := hinv.2.2.2
  rw [get_set_eq_view hinv hsst hk hv, view_assign_self]
  simp [strip, hne]

/-- Witness of C1 on a `set` that flushes: the second of two puts into a fresh engine. -/
theorem read_your_write_witness :
    MEMTABLE_THRESHOLD ≤ (mapAssign "b" "2" (fresh.set "a" "1").memTable).length ∧
    (((fresh.set "a" "1").set "b" "2").get "b").1 = "2" :=
  ⟨by decide, read_your_write (fresh.set "a" "1") "b" "2"
    (Reachable.set fresh "a" "1" reachable_fresh (by decide) (by decide))
    (by decide) (by decide) (by decide)⟩

/-- Counterexample to C2 as stated for every key: after `set("z", "1")` on a fresh engine,
`del("a b")` flushes the record `a b __TOMBSTONE__`, and `get("a b")` reads the two words
`a` and `b` at the indexed offset and returns `b`. -/
theorem delete_visibility_fails_for_key_with_space :
    Reachable (fresh.set "z" "1") ∧
    (((fresh.set "z" "1").del "a b").get "a b").1 = "b" :=
  ⟨Reachable.set fresh "z" "1" reachable_fresh (by decide) (by decide), by decide⟩

/-- C2 (delete visibility), amended to keys that are proper words: in every reachable
state, `get(k)` right after `del(k)` returns the empty string, whether the tombstone stays
in the memtable or the `del` flushes it, and also after a later `set` of another key,
which may flush it. -/
theorem delete_visibility (s : LSMStorageEngine) (k : String) (hs : Reachable s)
    (hk : wfToken k = true) :
    ((s.del k).get k).1 = "" ∧
    ∀ k2 v, wfToken k2 = true → wfToken v = true → k2 ≠ k →
      (((s.del k).set k2 v).get k).1 = "" := by
  have hinv := reachable_inv hs
  obtain ⟨recs, hsst⟩ := hinv.2.2.2
  have h1 : ((s.del k).get k).1 = "" := by
    rw [del_eq_set_tombstone, get_set_eq_view hinv hsst hk (by decide), view_assign_self]
    simp [strip]
  refine ⟨h1, ?_⟩
  intro k2 v hk2 hv hne
  have hinv2 := reachable_inv (Reachable.del s k hs hk)
  obtain ⟨recs2, hsst2⟩ := hinv2.2.2.2
  rw [get_set_eq_view hinv2 hsst2 hk2 hv, view_assign_ne v _ _ (Ne.symm hne),
    ← get_eq_view hsst2, h1]

/-- Witness of C2: the `del` that flushes the tombstone of `a`. -/
theorem delete_visibility_witness :
    (((fresh.set "b" "2").del "a").get "a").1 = "" ∧
    ((((fresh.set "b" "2").del "a").set "c" "3").get "a").1 = "" :=
  ⟨(delete_visibility (fresh.set "b" "2") "a"
      (Reachable.set fresh "b" "2" reachable_fresh (by decide) (by decide)) (by decide)).1,
    (delete_visibility (fresh.set "b" "2") "a"
      (Reachable.set fresh "b" "2" reachable_fresh (by decide) (by decide)) (by decide)).2
      "c" "3" (by decide) (by decide) (by decide)⟩

/-- C4 (compaction preserves the logical state): in every reachable state and for every
key, `get` returns after `compact()` what it returned before, also for the keys whose
latest mutation is still in the memtable. So a key that was just deleted still reads as
the empty string after a compaction, and a key that was just put still reads its value. -/
theorem compact_preserves_get (s : LSMStorageEngine) (key : String) (hs : Reachable s) :
    (s.compact.1.get key).1 = (s.get key).1 ∧
    (wfToken key = true → ((s.del key).compact.1.get key).1 = "") ∧
    (∀ v, wfToken key = true → wfToken v = true → v ≠ TOMBSTONE →
      ((s.set key v).compact.1.get key).1 = v) := by
  have main : ∀ t, Inv t → (t.compact.1.get key).1 = (t.get key).1 := by
    intro t ht
    obtain ⟨recs, hsst⟩ := ht.2.2.2
    obtain ⟨recs2, hs2, hview⟩ := compact_sstOK hsst
    rw [get_eq_view hs2, get_eq_view hsst, (compact_frame t).1, hview]
  have hinv := reachable_inv hs
  obtain ⟨recs, hsst⟩ := hinv.2.2.2
  refine ⟨main s hinv, ?_, ?_⟩
  · intro hk
    rw [main _ (reachable_inv (Reachable.del s key hs hk)), del_eq_set_tombstone,
      get_set_eq_view hinv hsst hk (by decide), view_assign_self]
    simp [strip]
  · intro v hk hv hne
    rw [main _ (reachable_inv (Reachable.set s key v hs hk hv)),
      get_set_eq_view hinv hsst hk hv, view_assign_self]
    simp [strip, hne]

/-- Witness of C4: `a` is deleted in the memtable only, its old record is in the file. -/
theorem compact_preserves_get_witness :
    ((((fresh.set "a" "1").set "b" "2").del "a").compact.1.get "a").1 =
      ((((fresh.set "a" "1").set "b" "2").del "a").get "a").1 :=
  (compact_preserves_get (((fresh.set "a" "1").set "b" "2").del "a") "a"
    (Reachable.del _ "a" (Reachable.set _ "b" "2"
      (Reachable.set fresh "a" "1" reachable_fresh (by decide) (by decide))
      (by decide) (by decide)) (by decide))).1

/-- C6 (recovery): for every reachable state, an engine constructed anew over the same
log and segment file answers every `get` as the old engine does. -/
theorem recovery_preserves_get (s : LSMStorageEngine) (key : String) (hs : Reachable s) :
    ((construct s.walFile s.sstableFile true true).get key).1 = (s.get key).1 := by
  obtain ⟨-, -, ⟨wrecs, -, hwwf, hwfile, hrep⟩, ⟨recs, hsst⟩⟩ := reachable_inv hs
  have h1 := construct_sstOK s.walFile s.sstableFile hsst.1 hsst.2.1
  have h2 := construct_memTable s.walFile s.sstableFile hwwf (by simp [hwfile])
  rw [get_eq_view h1, get_eq_view hsst, h2, hrep]

/-- Witness of C6: a crash with `a` deleted in the log only and `a`, `b` in the file. -/
theorem recovery_preserves_get_witness :
    ((construct (((fresh.set "a" "1").set "b" "2").del "a").walFile
      (((fresh.set "a" "1").set "b" "2").del "a").sstableFile true true).get "a").1 =
      ((((fresh.set "a" "1").set "b" "2").del "a").get "a").1 :=
  recovery_preserves_get (((fresh.set "a" "1").set "b" "2").del "a") "a"
    (Reachable.del _ "a" (Reachable.set _ "b" "2"
      (Reachable.set fresh "a" "1" reachable_fresh (by decide) (by decide))
      (by decide) (by decide)) (by decide))

/-- Counterexample to C7: an engine whose log could not be opened still stores the
mutation of `set("a", "1")` in its memtable, and writes no log record. -/
theorem set_applies_without_log :
    (construct none none false true).walStream = false ∧
    ((construct none none false true).set "a" "1").memTable = [("a", "1")] ∧
    (construct none none false true).memTable = [] ∧
    ((construct none none false true).set "a" "1").walFile = none :=
  ⟨by decide, by decide, by decide, by decide⟩

/-- C7 (put on log failure), amended to what the source does: when the log stream is not
open, `writeAheadLog` drops the record and leaves the state as it is, and `set` and `del`
go on to assign the key in the memtable and to test the threshold as usual; the assigned
memtable maps the key to the value, for `del` to the tombstone. When `wal.log` cannot be
opened for writing either, the call leaves the log file as it was, flush or no flush. -/
theorem set_without_log (s : LSMStorageEngine) (k v : String) (h : s.walStream = false) :
    writeAheadLog s k v = s ∧
    mapFind (mapAssign k v s.memTable) k = some v ∧
    s.set k v =
      (if MEMTABLE_THRESHOLD ≤ (mapAssign k v s.memTable).length
        then flushToDisk { s with memTable := mapAssign k v s.memTable }
        else { s with memTable := mapAssign k v s.memTable }) ∧
    s.del k =
      (if MEMTABLE_THRESHOLD ≤ (mapAssign k TOMBSTONE s.memTable).length
        then flushToDisk { s with memTable := mapAssign k TOMBSTONE s.memTable }
        else { s with memTable := mapAssign k TOMBSTONE s.memTable }) ∧
    (s.canOpenWal = false →
      (s.set k v).walFile = s.walFile ∧ (s.del k).walFile = s.walFile) := by
  have hw : ∀ v2, writeAheadLog s k v2 = s := by
    intro v2
    simp [writeAheadLog, h]
  have hwal : ∀ v2, s.canOpenWal = false → (s.set k v2).walFile = s.walFile := by
    intro v2 hcw
    simp only [LSMStorageEngine.set, hw]
    split_ifs
    · unfold flushToDisk
      cases hcs : s.canOpenSst <;> simp [hcs, hcw]
    · rfl
  refine ⟨hw v, mapFind_mapAssign_self k v s.memTable, ?_, ?_,
    fun hcw => ⟨hwal v hcw, hwal TOMBSTONE hcw⟩⟩
  · simp only [LSMStorageEngine.set, hw]
  · simp only [LSMStorageEngine.del, hw]

/-- Witness of C7: the engine whose log could not be opened; also the `set` that flushes
creates no `wal.log`. -/
theorem set_without_log_witness :
    writeAheadLog (construct none none false true) "a" "1" = construct none none false true ∧
    ((construct none none false true).set "a" "1").memTable = [("a", "1")] ∧
    ((construct none none false true).set "a" "1").walFile = none ∧
    (((construct none none false true).set "a" "1").set "b" "2").walFile = none ∧
    (((construct none none false true).set "a" "1").set "b" "2").sstableFile
      = some "a 1\nb 2\n".data := by
  have h := set_without_log (construct none none false true) "a" "1" (by decide)
  refine ⟨h.1, ?_, ?_, by decide, by decide⟩
  · rw [h.2.2.1]
    decide
  · rw [(h.2.2.2.2 (by decide)).1]
    decide

/-- C8 (`get` is read-only): in every state and for every key, `get` leaves the memtable,
the index, the log and the segment file as they were; `index[key]` is evaluated only for
a key that has an entry, so a miss inserts nothing. -/
theorem get_read_only (s : LSMStorageEngine) (key : String) : (s.get key).2 = s := by
  unfold LSMStorageEngine.get
  split
  · rfl
  · split
    · rfl
    · rename_i p hi
      split
      · rfl
      · simp only [indexAt, hi]
        split <;> rfl

/-- Counterexample to C9: an engine constructed over the log `a 1` that it cannot open
for writing holds `a` in its memtable; `set("b", "2")` reaches the threshold and flushes
into the segment file, which can be opened, yet the log is not empty on return: the
truncating open of `wal.log` fails and the file keeps `a 1`. -/
theorem flush_leaves_unopenable_log :
    (construct (some "a 1\n".data) (some []) false true).canOpenSst = true ∧
    MEMTABLE_THRESHOLD ≤
      (mapAssign "b" "2" (construct (some "a 1\n".data) (some []) false true).memTable).length ∧
    ((construct (some "a 1\n".data) (some []) false true).set "b" "2").sstableFile
      = some "a 1\nb 2\n".data ∧
    ((construct (some "a 1\n".data) (some []) false true).set "b" "2").memTable = [] ∧
    ((construct (some "a 1\n".data) (some []) false true).set "b" "2").walFile
      = some "a 1\n".data :=
  ⟨by decide, by decide, by decide, by decide, by decide⟩

/-- C9 (flush postcondition), amended in its last part: when a `set` or a `del` leaves the
memtable with at least `MEMTABLE_THRESHOLD` entries and the segment file can be opened,
then on return the segment file is its previous content followed by one record for each
entry of that memtable, tombstones included, in the order of the table, which is ascending
in the keys, and the memtable is empty; the log is empty if `wal.log` can be opened for
writing, and is otherwise left as the log step of the call left it. -/
theorem flush_postcondition (s : LSMStorageEngine) (k v : String)
    (hc : s.canOpenSst = true) (hsorted : KeySorted s.memTable) :
    (MEMTABLE_THRESHOLD ≤ (mapAssign k v s.memTable).length →
      FlushPost s (s.set k v) (mapAssign k v s.memTable)
        (if s.canOpenWal then some [] else (writeAheadLog s k v).walFile)) ∧
    (MEMTABLE_THRESHOLD ≤ (mapAssign k TOMBSTONE s.memTable).length →
      FlushPost s (s.del k) (mapAssign k TOMBSTONE s.memTable)
        (if s.canOpenWal then some [] else (writeAheadLog s k TOMBSTONE).walFile)) := by
  have key : ∀ w, MEMTABLE_THRESHOLD ≤ (mapAssign k w s.memTable).length →
      FlushPost s (s.set k w) (mapAssign k w s.memTable)
        (if s.canOpenWal then some [] else (writeAheadLog s k w).walFile) := by
    intro w hthr
    have hc2 : (logged s k w).canOpenSst = true := by
      unfold logged writeAheadLog
      cases s.walStream <;> exact hc
    have hf2 : (logged s k w).sstableFile = s.sstableFile := by
      unfold logged writeAheadLog
      cases s.walStream <;> rfl
    have hw2 : (logged s k w).canOpenWal = s.canOpenWal := by
      unfold logged writeAheadLog
      cases s.walStream <;> rfl
    have hw3 : (logged s k w).walFile = (writeAheadLog s k w).walFile := rfl
    rw [set_eq, if_pos hthr]
    refine ⟨?_, mapAssign_sorted k w hsorted, ?_, ?_⟩
    · simp [flushToDisk, hc2, writeEntries_fst, hf2, logged_memTable]
    · simp [flushToDisk, hc2]
    · simp [flushToDisk, hc2, hw2, hw3]
  exact ⟨key v, key TOMBSTONE⟩

/-- Witness of C9, the scenario of the specification: `put a 1`, `put b 2`, `delete a`,
`put c 3` leaves the four records `a 1`, `b 2`, `a __TOMBSTONE__`, `c 3` in the file. -/
theorem flush_postcondition_witness :
    ((((fresh.set "a" "1").set "b" "2").del "a").set "c" "3").sstableFile =
      some "a 1\nb 2\na __TOMBSTONE__\nc 3\n".data ∧
    ((((fresh.set "a" "1").set "b" "2").del "a").set "c" "3").memTable = [] ∧
    ((((fresh.set "a" "1").set "b" "2").del "a").set "c" "3").walFile = some [] := by
  have h := (flush_postcondition (((fresh.set "a" "1").set "b" "2").del "a") "c" "3"
    (by decide) (by decide)).1 (by decide)
  refine ⟨?_, h.2.2.1, ?_⟩
  · rw [h.1]
    decide
  · rw [h.2.2.2]
    decide

/-- C10 (compaction output): for a segment file that holds well-formed records,
`compact()` leaves a file made of exactly one record for each key whose last record in the
old file is not a tombstone, with the value of that last record, in ascending key order;
no tombstone and no other key is in it. -/
theorem compact_output (s : LSMStorageEngine) (recs : List (String × String))
    (hf : s.sstableFile = some (encode recs)) (hwf : wfRecords recs = true)
    (hc : s.canOpenSst = true) :
    ∃ out, s.compact.1.sstableFile = some (encode out) ∧ KeySorted out ∧
      (out.map Prod.fst).Nodup ∧
      ∀ k v, (k, v) ∈ out ↔ (lastVal recs k = some v ∧ v ≠ TOMBSTONE) := by
  refine ⟨liveEntries recs, ?_, liveEntries_sorted recs,
    keySorted_nodup (liveEntries_sorted recs), fun k v => mem_liveEntries⟩
  rw [compact_eq hf hwf hc]

/-- Witness of C10, the scenario of the specification: the file `a 1`, `b 2`,
`a __TOMBSTONE__`, `c 3` compacts to `b 2`, `c 3`. -/
theorem compact_output_witness :
    (∃ out, (run fresh [Op.set "a" "1", Op.set "b" "2", Op.del "a", Op.set "c" "3"]
        ).compact.1.sstableFile = some (encode out) ∧ KeySorted out ∧
      (out.map Prod.fst).Nodup ∧
      ∀ k v, (k, v) ∈ out ↔
        (lastVal [("a", "1"), ("b", "2"), ("a", TOMBSTONE), ("c", "3")] k = some v ∧
          v ≠ TOMBSTONE)) ∧
    (run fresh [Op.set "a" "1", Op.set "b" "2", Op.del "a", Op.set "c" "3"]
      ).compact.1.sstableFile = some "b 2\nc 3\n".data :=
  ⟨compact_output (run fresh [Op.set "a" "1", Op.set "b" "2", Op.del "a", Op.set "c" "3"])
    [("a", "1"), ("b", "2"), ("a", TOMBSTONE), ("c", "3")]
    (by decide) (by decide) (by decide), by decide⟩

/-! ## Further lemmas on the operations -/

theorem strLt_asymm {a b : String} (h : strLt a b = true) : strLt b a = false := by
  by_contra h2
  have h3 := strLt_trans h (by simpa using h2)
  simp [strLt_irrefl] at h3

theorem mapAssign_last {k v : String} {m : List (String × String)}
    (h : ∀ e ∈ m, strLt e.1 k = true) : mapAssign k v m = m ++ [(k, v)] := by
  induction m with
  | nil => rfl
  | cons e rest ih =>
    obtain ⟨k0, v0⟩ := e
    have h0 : strLt k0 k = true := h (k0, v0) (List.mem_cons_self _ _)
    have h1 : strLt k k0 = false := strLt_asymm h0
    have h2 : k ≠ k0 := Ne.symm (strLt_ne h0)
    simp [mapAssign, h1, h2, ih (fun e he => h e (List.mem_cons_of_mem _ he))]

theorem replay_sorted_eq (m : List (String × String)) :
    ∀ acc : List (String × String), KeySorted (acc ++ m) → replay m acc = acc ++ m := by
  induction m with
  | nil => intro acc _; simp [replay]
  | cons e rest ih =>
    obtain ⟨k, v⟩ := e
    intro acc h
    have h1 : ∀ e ∈ acc, strLt e.1 k = true := by
      intro e he
      have := List.pairwise_append.mp h
      exact this.2.2 e he (k, v) (List.mem_cons_self _ _)
    rw [replay_cons, mapAssign_last h1, ih (acc ++ [(k, v)]) (by simpa using h)]
    simp

theorem liveEntries_liveEntries (recs : List (String × String)) :
    liveEntries (liveEntries recs) = liveEntries recs := by
  have h1 : replay (liveEntries recs) [] = liveEntries recs := by
    have := replay_sorted_eq (liveEntries recs) [] (by simpa using liveEntries_sorted recs)
    simpa using this
  conv_lhs => rw [liveEntries, h1]
  unfold liveEntries
  rw [List.filter_filter]
  simp

theorem set_canOpenSst (s : LSMStorageEngine) (k v : String) :
    (s.set k v).canOpenSst = s.canOpenSst := by
  have h : (logged s k v).canOpenSst = s.canOpenSst := by
    unfold logged writeAheadLog
    cases s.walStream <;> rfl
  rw [set_eq]
  split_ifs
  · rw [flush_canOpenSst, h]
  · exact h

theorem set_memTable_length (s : LSMStorageEngine) (k v : String)
    (hc : s.canOpenSst = true) : (s.set k v).memTable.length < MEMTABLE_THRESHOLD := by
  have h : (logged s k v).canOpenSst = true := by
    unfold logged writeAheadLog
    cases s.walStream <;> exact hc
  rw [set_eq]
  split_ifs with hthr
  · simp [flushToDisk, h, MEMTABLE_THRESHOLD]
  · rw [logged_memTable]
    omega

theorem step_canOpenSst (s : LSMStorageEngine) (op : Op) :
    (step s op).canOpenSst = s.canOpenSst := by
  cases op with
  | set k v => exact set_canOpenSst s k v
  | del k => exact set_canOpenSst s k TOMBSTONE
  | compact => exact (compact_frame s).2.2.2.2

theorem run_snoc (s : LSMStorageEngine) (ops : List Op) (op : Op) :
    run s (ops ++ [op]) = step (run s ops) op := by
  simp [run, List.foldl_append]

theorem run_canOpenSst (s : LSMStorageEngine) (ops : List Op) :
    (run s ops).canOpenSst = s.canOpenSst := by
  induction ops using List.reverseRecOn with
  | nil => rfl
  | append_singleton ops op ih => rw [run_snoc, step_canOpenSst, ih]

/-! ## The claims, continued -/

/-- C11 (delete is put of the tombstone): in every state and for every key, `del(k)` ends
in the very state in which `set(k, "__TOMBSTONE__")` ends, memtable, log, segment file and
index alike; so the one flushes exactly when the other does. -/
theorem del_is_set_of_tombstone (s : LSMStorageEngine) (k : String) :
    s.del k = s.set k TOMBSTONE ∧ TOMBSTONE = "__TOMBSTONE__" :=
  ⟨rfl, rfl⟩

/-- C17 (memtable size bound): in every state whose segment file can be opened, the
memtable holds fewer than `MEMTABLE_THRESHOLD`, that is 2, entries when a `set` or a `del`
returns; hence so it does after every history of operations on a fresh engine. -/
theorem memTable_below_threshold (s : LSMStorageEngine) (k v : String) (ops : List Op)
    (hc : s.canOpenSst = true) :
    MEMTABLE_THRESHOLD = 2 ∧
    (s.set k v).memTable.length < MEMTABLE_THRESHOLD ∧
    (s.del k).memTable.length < MEMTABLE_THRESHOLD ∧
    (run fresh ops).memTable.length < MEMTABLE_THRESHOLD := by
  refine ⟨rfl, set_memTable_length s k v hc, set_memTable_length s k TOMBSTONE hc, ?_⟩
  induction ops using List.reverseRecOn with
  | nil => decide
  | append_singleton ops op ih =>
    rw [run_snoc]
    have hc2 : (run fresh ops).canOpenSst = true := by
      rw [run_canOpenSst]
      rfl
    cases op with
    | set k2 v2 => exact set_memTable_length _ k2 v2 hc2
    | del k2 => exact set_memTable_length _ k2 TOMBSTONE hc2
    | compact =>
      show (run fresh ops).compact.1.memTable.length < MEMTABLE_THRESHOLD
      rw [(compact_frame _).1]
      exact ih

/-- Witness of C17: a state recovered from a log of three keys holds three entries, and
the next `set` flushes them all. -/
theorem memTable_below_threshold_witness :
    (construct (some "a 1\nb 2\nc 3\n".data) none true true).memTable.length = 3 ∧
    ((construct (some "a 1\nb 2\nc 3\n".data) none true true).set "d" "4").memTable.length
      < MEMTABLE_THRESHOLD :=
  ⟨by decide, (memTable_below_threshold
    (construct (some "a 1\nb 2\nc 3\n".data) none true true) "d" "4" [] (by decide)).2.1⟩

/-- C18 (key independence): in every reachable state, for a key and a value that are
proper words and every other key, `get` of the other key returns after `set(k, v)` and
after `del(k)` what it returned before, also when the mutation flushes the memtable. -/
theorem key_independence (s : LSMStorageEngine) (k v k2 : String) (hs : Reachable s)
    (hk : wfToken k = true) (hv : wfToken v = true) (hne : k2 ≠ k) :
    ((s.set k v).get k2).1 = (s.get k2).1 ∧ ((s.del k).get k2).1 = (s.get k2).1 := by
  have hinv := reachable_inv hs
  obtain ⟨recs, hsst⟩ := hinv.2.2.2
  constructor
  · rw [get_set_eq_view hinv hsst hk hv, view_assign_ne v _ _ hne, ← get_eq_view hsst]
  · rw [del_eq_set_tombstone, get_set_eq_view hinv hsst hk (by decide),
      view_assign_ne _ _ _ hne, ← get_eq_view hsst]

/-- Witness of C18: `set b 2` flushes `a` from the memtable to the segment file. -/
theorem key_independence_witness :
    (((fresh.set "a" "1").set "b" "2").get "a").1 = ((fresh.set "a" "1").get "a").1 ∧
    (((fresh.set "a" "1").del "b").get "a").1 = ((fresh.set "a" "1").get "a").1 :=
  key_independence (fresh.set "a" "1") "b" "2" "a"
    (Reachable.set fresh "a" "1" reachable_fresh (by decide) (by decide))
    (by decide) (by decide) (by decide)

/-- C19 (compaction is idempotent): in every state whose segment file holds well-formed
records, a second `compact()` right after a first leaves the segment file, the index, the
memtable and the log as the first left them, and reports the same entry count. -/
theorem compact_idempotent (s : LSMStorageEngine) (recs : List (String × String))
    (hf : s.sstableFile = some (encode recs)) (hwf : wfRecords recs = true) :
    s.compact.1.compact = s.compact := by
  cases hc : s.canOpenSst with
  | false =>
    have h1 : s.compact = (s, none) := by simp [compact, hf, hc]
    rw [h1]
    exact h1
  | true =>
    have h1 := compact_eq hf hwf hc
    have hf2 : s.compact.1.sstableFile = some (encode (liveEntries recs)) := by rw [h1]
    have hc2 : s.compact.1.canOpenSst = true := by rw [h1]; exact hc
    have h2 := compact_eq hf2 (liveEntries_wf hwf) hc2
    rw [liveEntries_liveEntries] at h2
    rw [h2, h1]

/-- Witness of C19, on the file `a 1`, `b 2`, `a __TOMBSTONE__`, `c 3`. -/
theorem compact_idempotent_witness :
    (run fresh [Op.set "a" "1", Op.set "b" "2", Op.del "a", Op.set "c" "3"]
      ).compact.1.compact =
    (run fresh [Op.set "a" "1", Op.set "b" "2", Op.del "a", Op.set "c" "3"]).compact :=
  compact_idempotent (run fresh [Op.set "a" "1", Op.set "b" "2", Op.del "a", Op.set "c" "3"])
    [("a", "1"), ("b", "2"), ("a", TOMBSTONE), ("c", "3")] (by decide) (by decide)

theorem lastVal_none_not_mem {recs : List (String × String)} {key : String}
    (h : lastVal recs key = none) (v : String) : (key, v) ∉ recs := by
  intro hm
  obtain ⟨w, hw⟩ := lastVal_isSome_of_mem hm
  rw [h] at hw
  cases hw

theorem indexOK_read {index : String → Option Nat} {recs : List (String × String)}
    (hwf : wfRecords recs = true) (h : IndexOK index (encode recs) recs) (key : String) :
    ((∃ p, index key = some p) ↔ ∃ v, (key, v) ∈ recs) ∧
    ∀ p, index key = some p → ∃ v rest,
      readPair ((encode recs).drop p) = some (key, v, rest) ∧ lastVal recs key = some v := by
  have hk := h key
  cases hi : index key with
  | none =>
    rw [hi] at hk
    refine ⟨⟨?_, ?_⟩, ?_⟩
    · rintro ⟨p, hp⟩
      cases hp
    · rintro ⟨v, hv⟩
      exact absurd hv (lastVal_none_not_mem hk v)
    · intro p hp
      cases hp
  | some p =>
    rw [hi] at hk
    obtain ⟨v, pre, ws, rest, h1, h2, h3, h4⟩ := hk
    obtain ⟨hwk, hwv⟩ := wfRecords_mem hwf (lastVal_mem h1)
    refine ⟨⟨fun _ => ⟨v, lastVal_mem h1⟩, fun _ => ⟨p, rfl⟩⟩, ?_⟩
    intro q hq
    cases hq
    refine ⟨v, '\n' :: rest, ?_, h1⟩
    have hd : (encode recs).drop p = ws ++ (record key v ++ rest) := by
      rw [h2, ← h3]
      exact List.drop_left' rfl
    rw [hd, readPair_record rest h4 hwk hwv]

/-- C13 (position-index invariant): in every reachable state the segment file holds a
sequence of well-formed records such that the index has an entry for exactly the keys of
these records, and reading one record at the offset stored for a key (`seekg`, then
`>> k >> v`) yields that key with the value of its last record in the file. -/
theorem index_invariant (s : LSMStorageEngine) (hs : Reachable s) :
    ∃ recs, wfRecords recs = true ∧ s.sstableFile.getD [] = encode recs ∧
      ∀ key, ((∃ p, s.index key = some p) ↔ ∃ v, (key, v) ∈ recs) ∧
        ∀ p, s.index key = some p → ∃ v rest,
          readPair ((s.sstableFile.getD []).drop p) = some (key, v, rest) ∧
          lastVal recs key = some v := by
  obtain ⟨-, -, -, ⟨recs, hwf, hfile, hidx⟩⟩ := reachable_inv hs
  refine ⟨recs, hwf, hfile, fun key => ?_⟩
  rw [hfile]
  exact indexOK_read hwf hidx key

/-- Witness of C13: after `put a 1`, `put b 2`, `delete a`, `put c 3` the entry of `a` is
the offset 8 of the record `a __TOMBSTONE__`. -/
theorem index_invariant_witness :
    (∃ recs, wfRecords recs = true ∧
      (run fresh [Op.set "a" "1", Op.set "b" "2", Op.del "a", Op.set "c" "3"]
        ).sstableFile.getD [] = encode recs ∧
      ∀ key, ((∃ p, (run fresh [Op.set "a" "1", Op.set "b" "2", Op.del "a", Op.set "c" "3"]
          ).index key = some p) ↔ ∃ v, (key, v) ∈ recs) ∧
        ∀ p, (run fresh [Op.set "a" "1", Op.set "b" "2", Op.del "a", Op.set "c" "3"]
          ).index key = some p → ∃ v rest,
          readPair (((run fresh [Op.set "a" "1", Op.set "b" "2", Op.del "a", Op.set "c" "3"]
            ).sstableFile.getD []).drop p) = some (key, v, rest) ∧
          lastVal recs key = some v) ∧
    (run fresh [Op.set "a" "1", Op.set "b" "2", Op.del "a", Op.set "c" "3"]).index "a"
      = some 8 :=
  ⟨index_invariant (run fresh [Op.set "a" "1", Op.set "b" "2", Op.del "a", Op.set "c" "3"])
    (Reachable.set _ "c" "3" (Reachable.del _ "a" (Reachable.set _ "b" "2"
      (Reachable.set fresh "a" "1" reachable_fresh (by decide) (by decide))
      (by decide) (by decide)) (by decide)) (by decide) (by decide)), by decide⟩

/-- C15 (startup index build): for every segment file that holds well-formed records, keys
possibly repeated, the index that `buildIndex` produces has an entry for exactly the keys
of the file, and reading one record at the offset stored for a key yields that key with
the value of its last record in file order. -/
theorem buildIndex_last_occurrence (s : LSMStorageEngine) (recs : List (String × String))
    (hf : s.sstableFile = some (encode recs)) (hwf : wfRecords recs = true) (key : String) :
    ((∃ p, s.buildIndex.index key = some p) ↔ ∃ v, (key, v) ∈ recs) ∧
    ∀ p, s.buildIndex.index key = some p → ∃ v rest,
      readPair ((encode recs).drop p) = some (key, v, rest) ∧ lastVal recs key = some v := by
  have h : s.buildIndex.index =
      buildIndexLoop (encode recs).length ((encode recs).length + 1) (encode recs)
        (fun _ => none) := by
    simp [buildIndex, hf]
  rw [h]
  exact indexOK_read hwf (buildIndex_indexOK hwf) key

/-- Witness of C15: in the file `a 1`, `b 2`, `a 3` the entry of `a` is the offset 7, where
the line end before the third record stands, and the record read there is `a 3`. -/
theorem buildIndex_last_occurrence_witness :
    (((∃ p, (buildIndex (construct none (some "a 1\nb 2\na 3\n".data) true true)).index "a"
        = some p) ↔ ∃ v, ("a", v) ∈ [("a", "1"), ("b", "2"), ("a", "3")]) ∧
      ∀ p, (buildIndex (construct none (some "a 1\nb 2\na 3\n".data) true true)).index "a"
        = some p → ∃ v rest,
        readPair ((encode [("a", "1"), ("b", "2"), ("a", "3")]).drop p)
          = some ("a", v, rest) ∧
        lastVal [("a", "1"), ("b", "2"), ("a", "3")] "a" = some v) ∧
    (buildIndex (construct none (some "a 1\nb 2\na 3\n".data) true true)).index "a"
      = some 7 ∧
    readPair ("a 1\nb 2\na 3\n".data.drop 7) = some ("a", "3", ['\n']) :=
  ⟨buildIndex_last_occurrence (construct none (some "a 1\nb 2\na 3\n".data) true true)
    [("a", "1"), ("b", "2"), ("a", "3")] (by decide) (by decide) "a", by decide, by decide⟩

/-- C16 (recovery replay): for every log that holds well-formed records, `recover()` on an
empty memtable yields the memtable that maps each logged key to the value of its last
record in the log, tombstones being values like any other, and changes nothing else:
segment file, index and log stay as they were and nothing is flushed, however many entries
the memtable then holds. -/
theorem recover_replays (s : LSMStorageEngine) (wrecs : List (String × String))
    (hm : s.memTable = []) (hf : s.walFile = some (encode wrecs))
    (hwf : wfRecords wrecs = true) :
    (∀ key, mapFind s.recover.memTable key = lastVal wrecs key) ∧
    KeySorted s.recover.memTable ∧
    s.recover = { s with memTable := s.recover.memTable } ∧
    s.recover.sstableFile = s.sstableFile ∧ s.recover.index = s.index ∧
    s.recover.walFile = s.walFile := by
  have h : s.recover = { s with memTable := replay wrecs [] } := by
    simp [recover, hf, hm, readEntries_file hwf]
  rw [h]
  exact ⟨fun key => mapFind_replay_nil wrecs key, replay_sorted wrecs keySorted_nil, rfl,
    rfl, rfl, rfl⟩

/-- Witness of C16: a log of three keys, one of them deleted, gives a memtable of three
entries, more than the threshold, and no flush. -/
theorem recover_replays_witness :
    (recover (LSMStorageEngine.mk [] true
        (some "a 1\nb 2\na __TOMBSTONE__\nc 3\n".data) none (fun _ => none) true true)).memTable
      = [("a", TOMBSTONE), ("b", "2"), ("c", "3")] ∧
    (recover (LSMStorageEngine.mk [] true
        (some "a 1\nb 2\na __TOMBSTONE__\nc 3\n".data) none (fun _ => none) true true)).sstableFile
      = none := by
  have h := recover_replays (LSMStorageEngine.mk [] true
    (some "a 1\nb 2\na __TOMBSTONE__\nc 3\n".data) none (fun _ => none) true true)
    [("a", "1"), ("b", "2"), ("a", TOMBSTONE), ("c", "3")] rfl (by decide) (by decide)
  exact ⟨by decide, h.2.2.2.1⟩

/-! ## The RESP round trip -/

theorem getLines_line (l : List Char) :
    ∀ (rest line : List Char), (∀ c ∈ l, c ≠ '\n') →
      RESPParser.getLines (l ++ '\n' :: rest) line
        = (line ++ l) :: RESPParser.getLines rest [] := by
  induction l with
  | nil => intro rest line _; simp [RESPParser.getLines]
  | cons c cs ih =>
    intro rest line h
    have hc : c ≠ '\n' := h c (List.mem_cons_self _ _)
    simp [RESPParser.getLines, hc, ih rest (line ++ [c])
      (fun d hd => h d (List.mem_cons_of_mem _ hd))]

theorem digitChar_ne_newline (n : Nat) : Nat.digitChar n ≠ '\n' := by
  have key : ∀ m, m < 16 → Nat.digitChar m ≠ '\n' := by decide
  by_cases h : n < 16
  · exact key n h
  · have : Nat.digitChar n = '*' := by
      unfold Nat.digitChar
      have h0 : ∀ k, k < 16 → n ≠ k := fun k hk => by omega
      simp only [h0 0 (by omega), h0 1 (by omega), h0 2 (by omega), h0 3 (by omega),
        h0 4 (by omega), h0 5 (by omega), h0 6 (by omega), h0 7 (by omega), h0 8 (by omega),
        h0 9 (by omega), h0 10 (by omega), h0 11 (by omega), h0 12 (by omega),
        h0 13 (by omega), h0 14 (by omega), h0 15 (by omega), if_false]
    rw [this]
    decide

theorem toDigitsCore_no_newline (fuel : Nat) :
    ∀ (n : Nat) (ds : List Char), (∀ c ∈ ds, c ≠ '\n') →
      ∀ c ∈ Nat.toDigitsCore 10 fuel n ds, c ≠ '\n' := by
  induction fuel with
  | zero => intro n ds h; simpa [Nat.toDigitsCore] using h
  | succ f ih =>
    intro n ds h
    have h2 : ∀ c ∈ Nat.digitChar (n % 10) :: ds, c ≠ '\n' := by
      intro c hc
      rcases List.mem_cons.mp hc with hc | hc
      · rw [hc]
        exact digitChar_ne_newline _
      · exact h c hc
    simp only [Nat.toDigitsCore]
    split_ifs
    · exact h2
    · exact ih _ _ h2

theorem sizeDigits_no_newline (n : Nat) : ∀ c ∈ sizeDigits n, c ≠ '\n' :=
  toDigitsCore_no_newline _ _ _ (by simp)

theorem decodeLine_header (result : List String) (c0 : Char) (digits : List Char)
    (h0 : c0 = '*' ∨ c0 = '$') :
    RESPParser.decodeLine result (c0 :: (digits ++ ['\r'])) = result := by
  have h1 : (c0 :: (digits ++ ['\r'])).getLast? = some '\r' := by
    rw [← List.cons_append, List.getLast?_append]
    simp
  have h2 : (c0 :: (digits ++ ['\r'])).dropLast = c0 :: digits := by
    rw [← List.cons_append, List.dropLast_concat]
  unfold RESPParser.decodeLine
  simp only [h1, if_true, h2]
  rcases h0 with h0 | h0 <;> simp [h0]

theorem decodeLine_word (result : List String) {w : String} (hw : w.data ≠ [])
    (h0 : ∀ c rest, w.data = c :: rest → c ≠ '*' ∧ c ≠ '$') :
    RESPParser.decodeLine result (w.data ++ ['\r']) = result ++ [w] := by
  have h1 : (w.data ++ ['\r']).getLast? = some '\r' := by
    rw [List.getLast?_append]
    simp
  have h2 : (w.data ++ ['\r']).dropLast = w.data := List.dropLast_concat
  unfold RESPParser.decodeLine
  simp only [h1, if_true, h2]
  cases hd : w.data with
  | nil => exact absurd hd hw
  | cons c rest =>
    have := h0 c rest hd
    simp only [this.1, this.2, ne_eq, not_false_eq_true, and_self, if_true]
    rw [← hd]

theorem decode_encodeParts (parts : List String) :
    ∀ acc : List String,
      (∀ w ∈ parts, wfToken w = true ∧ ∀ c rest, w.data = c :: rest → c ≠ '*' ∧ c ≠ '$') →
      (RESPParser.getLines (RESPParser.encodeParts parts) []).foldl RESPParser.decodeLine acc
        = acc ++ parts := by
  induction parts with
  | nil => intro acc _; simp [RESPParser.encodeParts, RESPParser.getLines]
  | cons w rest ih =>
    intro acc h
    obtain ⟨hw, h0⟩ := h w (List.mem_cons_self _ _)
    obtain ⟨hne, hall⟩ := (wfToken_iff w).mp hw
    have e1 : RESPParser.encodeParts (w :: rest) =
        ('$' :: (sizeDigits w.length ++ ['\r'])) ++ '\n' ::
          ((w.data ++ ['\r']) ++ '\n' :: RESPParser.encodeParts rest) := by
      simp [RESPParser.encodeParts]
    have n1 : ∀ c ∈ '$' :: (sizeDigits w.length ++ ['\r']), c ≠ '\n' := by
      intro c hc
      rcases List.mem_cons.mp hc with hc | hc
      · rw [hc]; decide
      · rcases List.mem_append.mp hc with hc | hc
        · exact sizeDigits_no_newline _ c hc
        · simp only [List.mem_singleton] at hc
          rw [hc]; decide
    have n2 : ∀ c ∈ w.data ++ ['\r'], c ≠ '\n' := by
      intro c hc
      rcases List.mem_append.mp hc with hc | hc
      · intro hcn
        have := hall c hc
        rw [hcn] at this
        exact absurd this (by decide)
      · simp only [List.mem_singleton] at hc
        rw [hc]; decide
    rw [e1, getLines_line _ _ _ n1, getLines_line _ _ _ n2]
    simp only [List.nil_append, List.foldl_cons]
    rw [decodeLine_header _ _ _ (Or.inr rfl), decodeLine_word _ hne h0,
      ih _ (fun x hx => h x (List.mem_cons_of_mem _ hx))]
    simp

/-- Proper words that do not start with `*` or `$` pass the line test of `decodeMessage`:
decoding the encoded message gives them back. -/
theorem decode_encode_of_plain (parts : List String)
    (h : ∀ w ∈ parts, wfToken w = true ∧ ∀ c rest, w.data = c :: rest → c ≠ '*' ∧ c ≠ '$') :
    RESPParser.decodeMessage (RESPParser.encodeMessage parts) = parts := by
  have e1 : RESPParser.encodeMessage parts =
      ('*' :: (sizeDigits parts.length ++ ['\r'])) ++ '\n' :: RESPParser.encodeParts parts := by
    simp [RESPParser.encodeMessage]
  have n1 : ∀ c ∈ '*' :: (sizeDigits parts.length ++ ['\r']), c ≠ '\n' := by
    intro c hc
    rcases List.mem_cons.mp hc with hc | hc
    · rw [hc]; decide
    · rcases List.mem_append.mp hc with hc | hc
      · exact sizeDigits_no_newline _ c hc
      · simp only [List.mem_singleton] at hc
        rw [hc]; decide
  unfold RESPParser.decodeMessage
  rw [e1, getLines_line _ _ _ n1]
  simp only [List.nil_append, List.foldl_cons]
  rw [decodeLine_header _ _ _ (Or.inl rfl), decode_encodeParts parts [] h]
  simp

/-- C20 (RESP command round trip), at the failing input: the words `GET` and `$x`, as the
tokenizer of the client produces them for the line `GET $x`, are encoded and decoded to
the one word `GET`; `decodeMessage` drops the word `$x` with the size lines, since it
starts with `$`. -/
theorem resp_roundtrip_loses_dollar_word :
    wfWords ["GET", "$x"] = true ∧
    RESPParser.encodeMessage ["GET", "$x"] = "*2\r\n$3\r\nGET\r\n$2\r\n$x\r\n".data ∧
    RESPParser.decodeMessage (RESPParser.encodeMessage ["GET", "$x"]) = ["GET"] ∧
    RESPParser.decodeMessage (RESPParser.encodeMessage ["SET", "k", "*"]) = ["SET", "k"] :=
  ⟨by decide, by decide, by decide, by decide⟩

/-! ## The command dispatcher -/

/-- C21 (dispatch rejects malformed commands without side effects): for every list of
command words that is empty, or that is not `SET` with three words, `GET` with two or `DEL`
with two, `executeCommand` returns a string that begins with `-Error` and leaves the
engine, memtable, log, segment file and index, as it was. -/
theorem executeCommand_rejects_malformed (s : LSMStorageEngine) (command : List String)
    (h : command = [] ∨ wellFormedCommand command = false) :
    "-Error".data <+: (executeCommand s command).1.data ∧ (executeCommand s command).2 = s := by
  cases command with
  | nil =>
    refine ⟨?_, rfl⟩
    show "-Error".data <+: "-Error: Empty command\r\n".data
    decide
  | cons operation rest =>
    have h2 : wellFormedCommand (operation :: rest) = false := by
      rcases h with h | h
      · cases h
      · exact h
    simp only [wellFormedCommand, List.head?_cons, Option.some.injEq, Bool.or_eq_false_iff,
      Bool.and_eq_false_iff, decide_eq_false_iff_not] at h2
    obtain ⟨⟨h3, h4⟩, h5⟩ := h2
    have e1 : ¬ (operation = "SET" ∧ (operation :: rest).length = 3) := by
      rintro ⟨a, b⟩
      rcases h3 with h3 | h3
      · exact h3 a
      · exact h3 b
    have e2 : ¬ (operation = "GET" ∧ (operation :: rest).length = 2) := by
      rintro ⟨a, b⟩
      rcases h4 with h4 | h4
      · exact h4 a
      · exact h4 b
    have e3 : ¬ (operation = "DEL" ∧ (operation :: rest).length = 2) := by
      rintro ⟨a, b⟩
      rcases h5 with h5 | h5
      · exact h5 a
      · exact h5 b
    simp only [executeCommand, e1, e2, e3, if_false]
    refine ⟨?_, trivial⟩
    decide

/-- Witness of C21: `SET` with a missing value, on an engine that holds `a`. -/
theorem executeCommand_rejects_malformed_witness :
    (executeCommand (fresh.set "a" "1") ["SET", "b"]).1
      = "-Error: Unknown or malformed command\r\n" ∧
    "-Error".data <+: (executeCommand (fresh.set "a" "1") ["SET", "b"]).1.data ∧
    (executeCommand (fresh.set "a" "1") ["SET", "b"]).2 = fresh.set "a" "1" :=
  ⟨by decide, executeCommand_rejects_malformed (fresh.set "a" "1") ["SET", "b"]
    (Or.inr (by decide))⟩

/-! ## Histories of operations -/

theorem opRecords_append (a b : List Op) :
    opRecords (a ++ b) = opRecords a ++ opRecords b := by
  induction a with
  | nil => rfl
  | cons op rest ih => cases op <;> simp [opRecords, ih]

theorem opRecords_wf {ops : List Op} (h : ∀ op ∈ ops, wfOp op = true) :
    wfRecords (opRecords ops) = true := by
  induction ops with
  | nil => rfl
  | cons op rest ih =>
    have h1 := h op (List.mem_cons_self _ _)
    have h2 := ih (fun o ho => h o (List.mem_cons_of_mem _ ho))
    cases op with
    | set k v =>
      simp only [wfOp, Bool.and_eq_true] at h1
      exact wfRecords_cons.mpr ⟨h1.1.1, h1.1.2, h2⟩
    | del k => exact wfRecords_cons.mpr ⟨h1, by decide, h2⟩
    | compact => exact h2

theorem reachable_run {ops : List Op} (h : ∀ op ∈ ops, wfOp op = true) :
    Reachable (run fresh ops) := by
  induction ops using List.reverseRecOn with
  | nil => exact reachable_fresh
  | append_singleton ops op ih =>
    have h1 := h op (by simp)
    have h2 := ih (fun o ho => h o (by simp [ho]))
    rw [run_snoc]
    cases op with
    | set k v =>
      simp only [wfOp, Bool.and_eq_true] at h1
      exact Reachable.set _ k v h2 h1.1.1 h1.1.2
    | del k => exact Reachable.del _ k h2 h1
    | compact => exact Reachable.compact _ h2

theorem compact_get_inv {t : LSMStorageEngine} (ht : Inv t) (key : String) :
    (t.compact.1.get key).1 = (t.get key).1 := by
  obtain ⟨recs, hsst⟩ := ht.2.2.2
  obtain ⟨recs2, hs2, hview⟩ := compact_sstOK hsst
  rw [get_eq_view hs2, get_eq_view hsst, (compact_frame t).1, hview]

theorem get_run {ops : List Op} (h : ∀ op ∈ ops, wfOp op = true) (key : String) :
    ((run fresh ops).get key).1 = strip (lastVal (opRecords ops) key) := by
  induction ops using List.reverseRecOn with
  | nil => rfl
  | append_singleton ops op ih =>
    have h1 := h op (by simp)
    have hpre : ∀ o ∈ ops, wfOp o = true := fun o ho => h o (by simp [ho])
    have ih2 := ih hpre
    have hinv := reachable_inv (reachable_run hpre)
    obtain ⟨recs, hsst⟩ := hinv.2.2.2
    have hset : ∀ k v, wfToken k = true → wfToken v = true →
        (((run fresh ops).set k v).get key).1
          = strip (lastVal (opRecords ops ++ [(k, v)]) key) := by
      intro k v hk hv
      rw [get_set_eq_view hinv hsst hk hv, lastVal_snoc]
      by_cases hkey : k = key
      · subst hkey
        simp [view_assign_self]
      · rw [view_assign_ne v _ _ (Ne.symm hkey), ← get_eq_view hsst, ih2]
        simp [hkey]
    rw [run_snoc, opRecords_append]
    cases op with
    | set k v =>
      simp only [wfOp, Bool.and_eq_true] at h1
      exact hset k v h1.1.1 h1.1.2
    | del k => exact hset k TOMBSTONE h1 (by decide)
    | compact =>
      show ((run fresh ops).compact.1.get key).1 = _
      rw [compact_get_inv hinv, ih2]
      simp [opRecords]

theorem any_mutates_iff (ops : List Op) (k : String) :
    ops.any (mutates k) = true ↔ ∃ w, lastVal (opRecords ops) k = some w := by
  induction ops with
  | nil => simp [opRecords, lastVal]
  | cons op rest ih =>
    cases op with
    | set k0 v0 =>
      simp only [List.any_cons, Bool.or_eq_true, ih, mutates, decide_eq_true_eq, opRecords,
        lastVal]
      cases hl : lastVal (opRecords rest) k with
      | some w => simp
      | none => by_cases hk : k0 = k <;> simp [hk]
    | del k0 =>
      simp only [List.any_cons, Bool.or_eq_true, ih, mutates, decide_eq_true_eq, opRecords,
        lastVal]
      cases hl : lastVal (opRecords rest) k with
      | some w => simp
      | none => by_cases hk : k0 = k <;> simp [hk]
    | compact =>
      simp only [List.any_cons, Bool.or_eq_true, ih, mutates, opRecords]
      simp

theorem mem_putKeys {ops : List Op} (h : ∀ op ∈ ops, wfOp op = true) (key : String) :
    key ∈ putKeys ops ↔ ∃ v, lastVal (opRecords ops) key = some v ∧ v ≠ TOMBSTONE := by
  induction ops with
  | nil => simp [putKeys, opRecords, lastVal]
  | cons op rest ih =>
    have h1 := h op (List.mem_cons_self _ _)
    have ih2 := ih (fun o ho => h o (List.mem_cons_of_mem _ ho))
    cases op with
    | set k v =>
      simp only [wfOp, Bool.and_eq_true, Bool.not_eq_true', decide_eq_false_iff_not] at h1
      have hv : v ≠ TOMBSTONE := h1.2
      simp only [putKeys, opRecords, lastVal]
      cases hl : lastVal (opRecords rest) key with
      | some w =>
        rw [hl] at ih2
        have hne : ∀ k2, k2 = key → rest.any (mutates k2) = true := by
          intro k2 hk2
          subst hk2
          exact (any_mutates_iff rest k2).mpr ⟨w, hl⟩
        by_cases hany : rest.any (mutates k) = true
        · simpa [hany] using ih2
        · have hk : key ≠ k := fun hk => hany (hne k hk.symm)
          simpa [hany, hk] using ih2
      | none =>
        rw [hl] at ih2
        have hnot : key ∉ putKeys rest := by simpa using ih2
        by_cases hany : rest.any (mutates k) = true
        · have hk : k ≠ key := by
            rintro rfl
            obtain ⟨w, hw⟩ := (any_mutates_iff rest k).mp hany
            rw [hl] at hw
            cases hw
          simp [hany, hnot, hk]
        · by_cases hk : k = key
          · subst hk
            simp [hany, hv]
          · simp [hany, hnot, hk, Ne.symm hk]
    | del k =>
      simp only [putKeys, opRecords, lastVal]
      cases hl : lastVal (opRecords rest) key with
      | some w =>
        rw [hl] at ih2
        simpa using ih2
      | none =>
        rw [hl] at ih2
        have hnot : key ∉ putKeys rest := by simpa using ih2
        by_cases hk : k = key <;> simp [hnot, hk]
    | compact =>
      simpa only [putKeys, opRecords] using ih2

theorem putKeys_nodup {ops : List Op} (h : ∀ op ∈ ops, wfOp op = true) :
    (putKeys ops).Nodup := by
  induction ops with
  | nil => simp [putKeys]
  | cons op rest ih =>
    have hrest : ∀ o ∈ rest, wfOp o = true := fun o ho => h o (List.mem_cons_of_mem _ ho)
    have ih2 := ih hrest
    cases op with
    | set k v =>
      simp only [putKeys]
      split_ifs with hany
      · exact ih2
      · refine List.nodup_cons.mpr ⟨?_, ih2⟩
        intro hmem
        obtain ⟨w, hw, -⟩ := (mem_putKeys hrest k).mp hmem
        exact hany ((any_mutates_iff rest k).mpr ⟨w, hw⟩)
    | del k => exact ih2
    | compact => exact ih2

theorem strip_ne_empty {recs : List (String × String)} (h : wfRecords recs = true)
    (key : String) :
    strip (lastVal recs key) ≠ "" ↔ ∃ v, lastVal recs key = some v ∧ v ≠ TOMBSTONE := by
  cases hl : lastVal recs key with
  | none => simp [strip]
  | some v =>
    have hv : wfToken v = true := (wfRecords_mem h (lastVal_mem hl)).2
    have hne : v ≠ "" := by
      rintro rfl
      simp [wfToken] at hv
    by_cases hT : v = TOMBSTONE <;> simp [strip, hT, hne]

/-! ## The entry count of a compaction -/

theorem compact_reports_file_keys (s : LSMStorageEngine) (recs : List (String × String))
    (hf : s.sstableFile = some (encode recs)) (hwf : wfRecords recs = true)
    (hc : s.canOpenSst = true) :
    s.compact.2 = some (fileLiveKeys recs).length := by
  rw [compact_eq hf hwf hc, liveEntries_length]

/-- Counterexample to C5: after `set a 1`, `set b 2` (flush) and `del a`, only `b` is
live, yet `compact()` reports 2 entries: the tombstone of `a` is still in the memtable,
which `compact` does not read. -/
theorem compact_count_ignores_memtable :
    Reachable (run fresh [Op.set "a" "1", Op.set "b" "2", Op.del "a"]) ∧
    (putKeys [Op.set "a" "1", Op.set "b" "2", Op.del "a"]).length = 1 ∧
    ((run fresh [Op.set "a" "1", Op.set "b" "2", Op.del "a"]).get "a").1 = "" ∧
    ((run fresh [Op.set "a" "1", Op.set "b" "2", Op.del "a"]).get "b").1 = "2" ∧
    (run fresh [Op.set "a" "1", Op.set "b" "2", Op.del "a"]).compact.2 = some 2 :=
  ⟨Reachable.del _ "a" (Reachable.set _ "b" "2"
      (Reachable.set fresh "a" "1" reachable_fresh (by decide) (by decide))
      (by decide) (by decide)) (by decide), by decide, by decide, by decide, by decide⟩

/-- C5 (compaction entry count), amended to the states without pending mutations: for
every history of well-formed `set`, `del` and `compact` on a fresh engine that ends with an
empty memtable and with a segment file, the entry count that `compact()` reports equals the
number of distinct keys whose last operation in the history is a put. -/
theorem compact_count (ops : List Op) (hwf : ∀ op ∈ ops, wfOp op = true)
    (hmem : (run fresh ops).memTable = [])
    (hfile : (run fresh ops).sstableFile ≠ none) :
    (run fresh ops).compact.2 = some (putKeys ops).length := by
  obtain ⟨-, hcs, -, ⟨recs, hrwf, hfileeq, hidx⟩⟩ := reachable_inv (reachable_run hwf)
  have hf2 : (run fresh ops).sstableFile = some (encode recs) := by
    cases hf : (run fresh ops).sstableFile with
    | none => exact absurd hf hfile
    | some f =>
      rw [hf] at hfileeq
      simpa using hfileeq
  have hstrip : ∀ key, strip (lastVal recs key) = strip (lastVal (opRecords ops) key) := by
    intro key
    rw [← get_run hwf key, get_eq_view ⟨hrwf, hfileeq, hidx⟩ key, hmem]
    simp [view, mapFind]
  have hperm : ((liveEntries recs).map Prod.fst).Perm (putKeys ops) := by
    refine (List.perm_ext_iff_of_nodup (keySorted_nodup (liveEntries_sorted recs))
      (putKeys_nodup hwf)).mpr ?_
    intro key
    rw [mem_putKeys hwf key, ← strip_ne_empty (opRecords_wf hwf) key, ← hstrip key,
      strip_ne_empty hrwf key]
    constructor
    · intro hk
      obtain ⟨e, he, rfl⟩ := List.mem_map.mp hk
      exact ⟨e.2, mem_liveEntries.mp he⟩
    · rintro ⟨v, hv⟩
      exact List.mem_map.mpr ⟨(key, v), mem_liveEntries.mpr hv, rfl⟩
  rw [compact_eq hf2 hrwf hcs, ← hperm.length_eq, List.length_map]

/-- Witness of C5, the scenario of the specification: after `put a 1`, `put b 2`,
`delete a`, `put c 3` the memtable is empty, and `compact()` reports the 2 live keys `b`
and `c`. -/
theorem compact_count_witness :
    (run fresh [Op.set "a" "1", Op.set "b" "2", Op.del "a", Op.set "c" "3"]).compact.2
      = some (putKeys [Op.set "a" "1", Op.set "b" "2", Op.del "a", Op.set "c" "3"]).length ∧
    (putKeys [Op.set "a" "1", Op.set "b" "2", Op.del "a", Op.set "c" "3"]).length = 2 :=
  ⟨compact_count [Op.set "a" "1", Op.set "b" "2", Op.del "a", Op.set "c" "3"]
    (by decide) (by decide) (by decide), by decide⟩

end Blinkdb
